import Mathlib

/-!
Verification development for the agentlogs transcript-normalization and
session-discovery engine.  The Go source is shallowly embedded: each Go
function that a claim refers to is translated into an executable Lean
definition over explicit data types; stateful code (the Claude normalizer)
becomes a step function on an explicit state record, JSON values appear in
their post-parse structural form, and file-system reads appear as explicit
input lists or injected functions.  Strings are modelled at rune (Char)
granularity; every input considered here is ASCII, where Go byte indices
and rune indices coincide.
-/

/-! ## String utilities (models of Go `strings` and `path/filepath` helpers) -/

/-- Model of `strings.Index(hay, needle)` on rune lists: the first index at
which `needle` occurs in `hay`, or `none` when it does not occur
(Go returns `-1`). -/
def strIndexL (hay needle : List Char) : Option Nat :=
  match hay with
  | [] => if needle.isEmpty then some 0 else none
  | _ :: t => if needle.isPrefixOf hay then some 0 else (strIndexL t needle).map (· + 1)

/-- Model of `strings.Index` on strings. -/
def strIndexS (hay needle : String) : Option Nat :=
  strIndexL hay.data needle.data

/-- Model of `strings.Contains(hay, needle)`. -/
def strContains (hay needle : String) : Bool :=
  (strIndexS hay needle).isSome

/-- Model of `strings.HasSuffix(s, suf)`. -/
def strHasSuffix (s suf : String) : Bool :=
  suf.data.isSuffixOf s.data

/-- Model of `strings.HasPrefix(s, pre)`. -/
def strHasPrefix (s pre : String) : Bool :=
  pre.data.isPrefixOf s.data

/-- Model of `strings.TrimSuffix(s, suf)`. -/
def trimSuffix (s suf : String) : String :=
  if suf.data.isSuffixOf s.data then
    String.mk (s.data.take (s.data.length - suf.data.length))
  else s

/-- Auxiliary splitter: splits the remaining rune list at every occurrence of
`sep`, `acc` holding the (reversed) runes of the current field. -/
def splitCharAux (sep : Char) : List Char → List Char → List String
  | [], acc => [String.mk acc.reverse]
  | c :: t, acc =>
    if c = sep then String.mk acc.reverse :: splitCharAux sep t []
    else splitCharAux sep t (c :: acc)

/-- Model of `strings.Split(s, sep)` for a one-rune separator (the only form
the source uses).  `strings.Split("", "/") = [""]`, matching Go. -/
def splitChar (sep : Char) (s : String) : List String :=
  splitCharAux sep s.data []

/-- Model of `filepath.Base`: empty path gives ".", trailing slashes are
stripped, then the last component is taken; a path of only slashes gives
"/".  (Windows volume handling is irrelevant here and omitted.) -/
def baseName (p : String) : String :=
  if p = "" then "." else
    let rev := p.data.reverse
    let stripped := rev.dropWhile (fun c => decide (c = '/'))
    if stripped.isEmpty then "/"
    else String.mk ((stripped.takeWhile (fun c => decide (c ≠ '/'))).reverse)

/-- Model of `filepath.Dir` for the dot-free, duplicate-slash-free paths the
scanner deals in: everything before the last component; "." when the path
has no slash; "/" when the last component sits at the root.  (`filepath.Dir`
additionally runs `Clean`, which is the identity on such paths.) -/
def dirName (p : String) : String :=
  let rev := p.data.reverse
  let afterBase := rev.dropWhile (fun c => decide (c ≠ '/'))
  let afterSlashes := afterBase.dropWhile (fun c => decide (c = '/'))
  if afterBase.isEmpty then "."
  else if afterSlashes.isEmpty then "/"
  else String.mk afterSlashes.reverse

/-! ## Canonical entry model (`internal/transcript/unified.go`) -/

/-- `UnifiedTextContent` holds text content. -/
structure UnifiedTextContent where
  text : String
deriving DecidableEq, Repr

/-- `UnifiedToolCall` holds tool invocation details.  The
`map[string]interface{}` input is rendered as a key/value list of strings,
which is all the embedded code ever stores in it. -/
structure UnifiedToolCall where
  id : String
  name : String
  input : List (String × String)
  status : String
  output : String
  title : String
  diff : String
deriving DecidableEq, Repr

/-- `UnifiedToolResult` holds tool execution results. -/
structure UnifiedToolResult where
  toolCallID : String
  output : String
  isError : Bool
deriving DecidableEq, Repr

/-- `UnifiedReasoning` holds reasoning/thinking content. -/
structure UnifiedReasoning where
  text : String
deriving DecidableEq, Repr

/-- The dynamic `Content interface{}` of a `UnifiedPart`: one of the four
content shapes the normalizers store there. -/
inductive UContent where
  | textC (c : UnifiedTextContent)
  | reasoningC (c : UnifiedReasoning)
  | toolCallC (c : UnifiedToolCall)
  | toolResultC (c : UnifiedToolResult)
deriving DecidableEq, Repr

/-- `UnifiedPart`: the `Type` string tag together with the dynamic content.
A Go type assertion `part.Content.(UnifiedToolCall)` is modelled as a match
on the `UContent` constructor. -/
structure UnifiedPart where
  ptype : String
  content : UContent
deriving DecidableEq, Repr

/-- `UnifiedTokens` captures token usage across providers. -/
structure UnifiedTokens where
  input : Int
  output : Int
  reasoning : Int
  cacheRead : Int
  cacheWrite : Int
deriving DecidableEq, Repr

/-- `UnifiedEntry`: one canonical transcript entry.  `time.Time` values are
modelled as integers (nanoseconds since the epoch); only their order and
zero-ness ever matter to the embedded code. -/
structure UnifiedEntry where
  role : String
  timestamp : Int
  messageID : String
  parts : List UnifiedPart
  tokens : Option UnifiedTokens
  provider : String
deriving DecidableEq, Repr

/-! ## OpenCode assembler (`internal/opencode/assembler.go`)

The assembler reads one JSON file per message and one JSON file per part
from disk.  The embedding starts from the post-parse data: the list of
successfully parsed message records for the session, each already carrying
its successfully parsed part records (a message or part file that fails to
parse is simply absent from these lists, matching the skip-and-continue
failure policy). -/

/-- `opencode.TextPart`. -/
structure OCTextPart where
  text : String
deriving DecidableEq, Repr

/-- `opencode.ToolPart` (with the nested `state` already flattened by
`parsePart`). -/
structure OCToolPart where
  callID : String
  tool : String
  status : String
  input : List (String × String)
  output : String
  title : String
  diff : String
deriving DecidableEq, Repr

/-- The dynamic `Content interface{}` of an `opencode.Part`: a text part, a
tool part, or one of the map-shaped contents `parsePart` builds for
step-start / step-finish / patch parts (whose fields no claim touches). -/
inductive OCContent where
  | textP (t : OCTextPart)
  | toolP (t : OCToolPart)
  | otherP
deriving DecidableEq, Repr

/-- `opencode.Part`: `Type` discriminator, part identifier and content. -/
structure OCPart where
  ptype : String
  id : String
  content : OCContent
deriving DecidableEq, Repr

/-- One parsed OpenCode message file (the anonymous `msg` struct in
`AssembleTranscript`) together with the parsed part files found in its
per-message parts directory, in file-listing order. -/
structure OCMessage where
  id : String
  role : String
  created : Int
  tokInput : Int
  tokOutput : Int
  tokReasoning : Int
  tokCacheRead : Int
  tokCacheWrite : Int
  parts : List OCPart
deriving DecidableEq, Repr

/-- `opencode.TokenUsage`. -/
structure OCTokenUsage where
  input : Int
  output : Int
  reasoning : Int
  cacheRead : Int
  cacheWrite : Int
deriving DecidableEq, Repr

/-- `opencode.TranscriptEntry`. -/
structure OCTranscriptEntry where
  role : String
  timestamp : Int
  parts : List OCPart
  messageID : String
  tokens : Option OCTokenUsage
deriving DecidableEq, Repr

/-- Order on part identifiers used by `sort.Slice(parts, parts[i].ID <
parts[j].ID)`. -/
def ocPartLE (a b : OCPart) : Prop := a.id ≤ b.id

instance : DecidableRel ocPartLE := fun a b => inferInstanceAs (Decidable (a.id ≤ b.id))

/-- Order on assembled entries used by `sort.Slice(entries,
entries[i].Timestamp.Before(entries[j].Timestamp))`. -/
def ocEntryLE (a b : OCTranscriptEntry) : Prop := a.timestamp ≤ b.timestamp

instance : DecidableRel ocEntryLE := fun a b => Int.decLe a.timestamp b.timestamp

/-- Builds one `TranscriptEntry` from a parsed message: parts sorted by
identifier, timestamp `time.Unix(0, created*1e6)` (milliseconds to
nanoseconds), token usage attached when input or output is positive. -/
def assembleEntry (m : OCMessage) : OCTranscriptEntry :=
  { role := m.role
    timestamp := m.created * 1000000
    parts := List.insertionSort ocPartLE m.parts
    messageID := m.id
    tokens :=
      if m.tokInput > 0 ∨ m.tokOutput > 0 then
        some ⟨m.tokInput, m.tokOutput, m.tokReasoning, m.tokCacheRead, m.tokCacheWrite⟩
      else none }

/-- `Assembler.AssembleTranscript`, from the parsed message files onward:
assemble each message in file-listing order, then sort the entries by
creation timestamp.  (`sort.Slice` is modelled by insertion sort; the claims
proved below never depend on the order of entries with equal
timestamps, which Go leaves unspecified.) -/
def assembleTranscript (msgs : List OCMessage) : List OCTranscriptEntry :=
  List.insertionSort ocEntryLE (msgs.map assembleEntry)

/-! ## OpenCode normalizer (`internal/transcript/normalizer_opencode.go`) -/

/-- One iteration of the part-conversion switch of
`OpenCodeNormalizer.NormalizeEntry`: text parts with empty text are
dropped, tool parts become tool calls, step markers are skipped, any other
part type (patch, unknown) falls through the switch and is skipped. -/
def ocPartStep (acc : List UnifiedPart) (part : OCPart) : List UnifiedPart :=
  if part.ptype = "text" then
    match part.content with
    | OCContent.textP tp =>
      if tp.text ≠ "" then
        acc ++ [⟨"text", UContent.textC ⟨tp.text⟩⟩]
      else acc
    | _ => acc
  else if part.ptype = "tool" then
    match part.content with
    | OCContent.toolP tp =>
      acc ++ [⟨"tool_call", UContent.toolCallC
        ⟨tp.callID, tp.tool, tp.input, tp.status, tp.output, tp.title, tp.diff⟩⟩]
    | _ => acc
  else acc

/-- `OpenCodeNormalizer.NormalizeEntry`: converts one assembled OpenCode
entry to a `UnifiedEntry`. -/
def ocNormalizeEntry (oc : OCTranscriptEntry) : UnifiedEntry :=
  { role := oc.role
    timestamp := oc.timestamp
    messageID := oc.messageID
    provider := "opencode"
    tokens := oc.tokens.map (fun t => ⟨t.input, t.output, t.reasoning, t.cacheRead, t.cacheWrite⟩)
    parts := oc.parts.foldl ocPartStep [] }

/-- One iteration of `OpenCodeNormalizer.NormalizeAll`: keep the normalized
entry only when it has at least one part. -/
def ocAllStep (acc : List UnifiedEntry) (e : OCTranscriptEntry) : List UnifiedEntry :=
  let unified := ocNormalizeEntry e
  if unified.parts.length > 0 then acc ++ [unified] else acc

/-- `OpenCodeNormalizer.NormalizeAll`: normalizes every assembled entry,
keeping only the results with at least one part. -/
def ocNormalizeAll (entries : List OCTranscriptEntry) : List UnifiedEntry :=
  entries.foldl ocAllStep []

/-! ## Codex normalizer (`internal/transcript/normalizer_codex.go`)

One raw JSONL line parses to a generic JSON object.  The embedding records
the fields `CodexNormalizer.NormalizeLine` actually projects out of it,
each with its Go presence/type-assertion result: a failed assertion of an
absent or differently shaped field leaves the Go zero value, modelled by
`Option` where presence matters and by the zero value where it does not.
The two nested JSON decodes (the `arguments` string of a `function_call`
and the `output` string of a `function_call_output`) are likewise
represented post-parse. -/

/-- One element of a `response_item`/`message` content array.  A non-map
element, or a map without a string `type`, behaves exactly like a block
with an unrecognised type and is represented with `btype = ""`; an absent
or non-string `text` behaves like `text = ""` (both are skipped by the
`text != ""` guard). -/
structure CodexBlock where
  btype : String
  text : String
deriving DecidableEq, Repr

/-- One parsed Codex JSONL record, holding every field
`CodexNormalizer.NormalizeLine` reads.  `argsCommand` is
`arguments`-decoded `args["command"]` when it is a JSON array (elements
that are not strings appear as `none`); `outOutput` and `outExitCode` are
the fields of the decoded `output` string, Go zero values when that decode
fails. -/
structure CodexRecord where
  hasPayload : Bool
  rtype : String
  ptype : String
  role : String
  ts : Int
  textField : Option String
  messageField : Option String
  content : List CodexBlock
  name : String
  callID : String
  argsCommand : Option (List (Option String))
  outOutput : String
  outExitCode : Int
deriving DecidableEq, Repr

/-- The environment-context marker searched for in user text blocks. -/
def envMarker : String := "<environment_context>"

/-- Whether a content block passes the `input_text`/`output_text` type
check and the nonempty-text check of the user-message loop. -/
def codexBlockEligible (b : CodexBlock) : Bool :=
  (decide (b.btype = "input_text") || decide (b.btype = "output_text")) && decide (b.text ≠ "")

/-- Whether a content block triggers the environment-context early return:
eligible and containing the marker. -/
def codexBlockMarked (b : CodexBlock) : Bool :=
  codexBlockEligible b && strContains b.text envMarker

/-- The content-array loop of the `response_item`/`message` branch: walks
the blocks in order; an `input_text`/`output_text` block with nonempty text
containing the environment marker aborts the whole record (`return nil,
nil`, modelled as `none`); otherwise such a block contributes a `Text`
part; every other block contributes nothing. -/
def codexCollectText : List CodexBlock → Option (List UnifiedPart)
  | [] => some []
  | b :: rest =>
    if codexBlockEligible b then
      if strContains b.text envMarker then none
      else (codexCollectText rest).map (fun ps => ⟨"text", UContent.textC ⟨b.text⟩⟩ :: ps)
    else codexCollectText rest

/-- Shell-command extraction of the `function_call` branch: for a
`["bash","-lc",cmd]`-style array take element 2, otherwise the last
element; empty when the array is absent or empty or the element is not a
string. -/
def codexCommandOf (argsCommand : Option (List (Option String))) : String :=
  match argsCommand with
  | none => ""
  | some arr =>
    if arr.length > 0 then
      if arr.length ≥ 3 then (arr.getD 2 none).getD ""
      else (arr.getD (arr.length - 1) none).getD ""
    else ""

/-- `CodexNormalizer.NormalizeLine`, from the parsed record onward. -/
def codexNormalizeLine (r : CodexRecord) : Option UnifiedEntry :=
  if ¬r.hasPayload then none
  else if r.rtype = "event_msg" then
    match r.ptype with
    | "agent_reasoning" =>
      match r.textField with
      | some t => some ⟨"assistant", r.ts, "", [⟨"reasoning", UContent.reasoningC ⟨t⟩⟩], none, "codex"⟩
      | none => none
    | "agent_message" =>
      match r.messageField with
      | some m => some ⟨"assistant", r.ts, "", [⟨"text", UContent.textC ⟨m⟩⟩], none, "codex"⟩
      | none => none
    | _ => none
  else if r.rtype = "response_item" then
    match r.ptype with
    | "message" =>
      let role := if r.role = "" then "user" else r.role
      if r.role = "assistant" then none
      else
        match codexCollectText r.content with
        | none => none
        | some parts =>
          if parts.length = 0 then none
          else some ⟨role, r.ts, "", parts, none, "codex"⟩
    | "function_call" =>
      some ⟨"assistant", r.ts, "",
        [⟨"tool_call", UContent.toolCallC
          ⟨r.callID, r.name, [("command", codexCommandOf r.argsCommand)], "", "", "", ""⟩⟩],
        none, "codex"⟩
    | "function_call_output" =>
      some ⟨"assistant", r.ts, "",
        [⟨"tool_result", UContent.toolResultC
          ⟨r.callID, r.outOutput, r.outExitCode ≠ 0⟩⟩],
        none, "codex"⟩
    | _ => none
  else none

/-! ## Session scanner (`internal/session/scanner.go`) -/

/-- `session.JobInfo`: one plan/job association found in a transcript. -/
structure JobInfo where
  plan : String
  job : String
  lineIndex : Nat
deriving DecidableEq, Repr

/-- `session.SessionInfo`: one discovered session descriptor. -/
structure SessionInfo where
  sessionID : String
  projectName : String
  projectPath : String
  worktree : String
  ecosystem : String
  jobs : List JobInfo
  logFilePath : String
  startedAt : Int
  provider : String
deriving DecidableEq, Repr

/-- `sessions.SessionMetadata`, restricted to the fields the scanner reads
from a registry `metadata.json`. -/
structure SessionMetadata where
  sessionID : String
  claudeSessionID : String
  transcriptPath : String
  planName : String
  jobFilePath : String
  workingDirectory : String
  provider : String
  startedAt : Int
deriving DecidableEq, Repr

/-- `Scanner.parsePlanInfo`: extracts a `(plan, job)` pair from a block of
instructional text.  Both trigger phrases must be present; the candidate
path starts at the first "/" anywhere in the text and runs up to the first
subsequent " and" (falling back to the first subsequent " "); it must
contain "/plans/" and end in ".md", and its last two "/"-separated
components become the job and plan names. -/
def parsePlanInfo (content : String) : String × String :=
  if strContains content "Read the file" ∧ strContains content "and execute the agent job" then
    match strIndexS content "/" with
    | none => ("", "")
    | some start =>
      let rest := content.data.drop start
      let stop :=
        match strIndexL rest " and".data with
        | some e => some e
        | none => strIndexL rest " ".data
      match stop with
      | none => ("", "")
      | some e =>
        let path := String.mk (rest.take e)
        if strContains path "/plans/" ∧ strHasSuffix path ".md" then
          let comps := splitChar '/' path
          if comps.length ≥ 2 then
            (comps.getD (comps.length - 2) "", comps.getD (comps.length - 1) "")
          else ("", "")
        else ("", "")
  else ("", "")

/-- One live-scanned transcript file together with the result of
`parseClaudeLog` / `parseCodexLog` on it (the bounded-prefix parse that
recovers session id, working directory, start time and job
associations). -/
structure LiveParse where
  logPath : String
  sessionID : String
  cwd : String
  startedAt : Int
  jobs : List JobInfo
  found : Bool
deriving DecidableEq, Repr

/-- Provider derived from a path, as the scanner does with
`strings.Contains(path, "/.codex/")`. -/
def providerOfPath (p : String) : String :=
  if strContains p "/.codex/" then "codex" else "claude"

/-- The per-live-file state of the `Scanner.Scan` merge loop:
registry sessions already emitted, archived session ids not yet claimed by
the registry, and the output accumulated so far. -/
structure ScanState where
  processedRegistry : List String
  archIDs : List String
  out : List SessionInfo
deriving Repr

/-- One iteration of the `Scanner.Scan` merge loop over a live-scanned
file.  `ppp` injects the `parseProjectPath` collaborator (project path,
project name, worktree, ecosystem for a working directory) and `statMT`
injects `os.Stat(..).ModTime()` (`none` when the stat fails). -/
def scanStep (ppp : String → String × String × String × String)
    (statMT : String → Option Int)
    (registry : List (String × SessionMetadata))
    (st : ScanState) (live : LiveParse) : ScanState :=
  match registry.lookup live.sessionID with
  | some md =>
    if live.sessionID ∈ st.processedRegistry then st
    else
      let (projectPath, projectName, worktree, ecosystem) := ppp md.workingDirectory
      let lineIdx := match live.jobs with
        | j :: _ => j.lineIndex
        | [] => 0
      let registryJobs :=
        if md.planName ≠ "" ∧ md.jobFilePath ≠ "" then
          [⟨md.planName, baseName md.jobFilePath, lineIdx⟩]
        else []
      let transcriptPath := if md.transcriptPath ≠ "" then md.transcriptPath else live.logPath
      let prov := if md.provider ≠ "" then md.provider else providerOfPath transcriptPath
      { processedRegistry := live.sessionID :: st.processedRegistry
        archIDs := st.archIDs.filter (fun a => decide (a ≠ live.sessionID))
        out := st.out ++ [⟨live.sessionID, projectName, projectPath, worktree, ecosystem,
          registryJobs, transcriptPath, md.startedAt, prov⟩] }
  | none =>
    if live.sessionID ∈ st.archIDs then st
    else if ¬live.found then
      match statMT live.logPath with
      | none => st
      | some mt =>
        { st with out := st.out ++ [⟨trimSuffix (baseName live.logPath) ".jsonl",
            "unknown", "unknown", "", "", [], live.logPath, mt, providerOfPath live.logPath⟩] }
    else
      let (projectPath, projectName, worktree, ecosystem) := ppp live.cwd
      { st with out := st.out ++ [⟨live.sessionID, projectName, projectPath, worktree, ecosystem,
          live.jobs, live.logPath, live.startedAt, providerOfPath live.logPath⟩] }

/-- `Scanner.Scan` from the parsed discovery sources onward: build the
archived-id index, run the merge loop over the live-scanned files, append
the archived sessions whose ids are still unclaimed, then append the
OpenCode sessions. -/
def scanMerge (ppp : String → String × String × String × String)
    (statMT : String → Option Int)
    (registry : List (String × SessionMetadata))
    (archived : List SessionInfo)
    (lives : List LiveParse)
    (opencodeSessions : List SessionInfo) : List SessionInfo :=
  let archIDs0 := (archived.filter (fun a => decide (a.sessionID ≠ ""))).map (·.sessionID)
  let final := lives.foldl (scanStep ppp statMT registry) ⟨[], archIDs0, []⟩
  final.out
    ++ archived.filter (fun a => decide (a.sessionID ∈ final.archIDs))
    ++ opencodeSessions

/-! ## Claude normalizer (`internal/transcript/normalizer_claude.go`)

`ClaudeNormalizer` buffers assistant entries and mutates them in place
through stored pointers.  The embedding replaces the pointers with indices
into an arena: the growing list of every entry the normalizer ever
buffered.  `pendingToolCalls` maps a call id to an (arena index, part
index) pair and `pendingEntries` is a list of arena indices.  An emission
is either a `direct` value (a snapshot the normalizer never mutates again)
or a `buffered` arena index; the caller-visible entry stream resolves
buffered indices against the final arena, which is exactly what a Go
caller holding the emitted pointers observes. -/

/-- One item of an assistant/user `message.content` array, carrying every
field `ClaudeNormalizer.parseContent` projects: `input` is the decoded
`tool_use` input map (empty when the decode fails) and `contentStr` the
string decode of a `tool_result` content (empty when that decode
fails). -/
structure ClaudeItem where
  ctype : String
  text : String
  thinking : String
  id : String
  name : String
  input : List (String × String)
  toolUseID : String
  contentStr : String
deriving DecidableEq, Repr

/-- The `message.content` JSON value: a plain string (user messages), an
array of items, or anything else (both unmarshal attempts fail). -/
inductive ClaudeContent where
  | strC (s : String)
  | arrC (items : List ClaudeItem)
  | otherC
deriving DecidableEq, Repr

/-- The `message` object of a raw Claude record. -/
structure ClaudeMsg where
  id : String
  content : ClaudeContent
deriving DecidableEq, Repr

/-- One parsed Claude JSONL record (the anonymous `raw` struct of
`NormalizeLine`); `message` is `none` when the field is absent or its
unmarshal fails, leaving message id and parts at their zero values. -/
structure ClaudeRecord where
  rtype : String
  timestamp : Int
  message : Option ClaudeMsg
deriving DecidableEq, Repr

/-- One iteration of the content-item switch of
`ClaudeNormalizer.parseContent`. -/
def parseItemStep (acc : List UnifiedPart) (item : ClaudeItem) : List UnifiedPart :=
  if item.ctype = "text" then
    if item.text ≠ "" then acc ++ [⟨"text", UContent.textC ⟨item.text⟩⟩] else acc
  else if item.ctype = "thinking" then
    if item.thinking ≠ "" then acc ++ [⟨"reasoning", UContent.reasoningC ⟨item.thinking⟩⟩] else acc
  else if item.ctype = "tool_use" then
    acc ++ [⟨"tool_call", UContent.toolCallC ⟨item.id, item.name, item.input, "", "", "", ""⟩⟩]
  else if item.ctype = "tool_result" then
    acc ++ [⟨"tool_result", UContent.toolResultC ⟨item.toolUseID, item.contentStr, false⟩⟩]
  else acc

/-- `ClaudeNormalizer.parseContent`. -/
def parseClaudeContent : ClaudeContent → List UnifiedPart
  | ClaudeContent.strC s =>
    if s ≠ "" then [⟨"text", UContent.textC ⟨s⟩⟩] else []
  | ClaudeContent.otherC => []
  | ClaudeContent.arrC items => items.foldl parseItemStep []

/-- The parts of a record: `parseContent` of its message content, empty
when the message is absent. -/
def recParts (r : ClaudeRecord) : List UnifiedPart :=
  match r.message with
  | some m => parseClaudeContent m.content
  | none => []

/-- The message id of a record, empty when the message is absent. -/
def recMessageID (r : ClaudeRecord) : String :=
  match r.message with
  | some m => m.id
  | none => ""

/-- The `UnifiedEntry` built at the top of `NormalizeLine` for a record. -/
def entryOfRecord (r : ClaudeRecord) : UnifiedEntry :=
  ⟨r.rtype, r.timestamp, recMessageID r, recParts r, none, "claude"⟩

/-- Insert-or-replace on the pending-call association list, mirroring a Go
map assignment. -/
def mapInsert : List (String × (Nat × Nat)) → String → Nat × Nat → List (String × (Nat × Nat))
  | [], k, v => [(k, v)]
  | (k0, v0) :: t, k, v =>
    if k0 = k then (k, v) :: t else (k0, v0) :: mapInsert t k v

/-- Key removal on the pending-call association list, mirroring Go
`delete`. -/
def mapDelete (m : List (String × (Nat × Nat))) (k : String) : List (String × (Nat × Nat)) :=
  m.filter (fun p => decide (p.1 ≠ k))

/-- The in-place write of a matched result into a buffered entry: when part
`pi` exists and its content is a tool call, its `output` field is replaced
(`tc.Output = tr.Output; pendingEntry.Parts[ref.partIndex].Content = tc`);
otherwise the entry is unchanged. -/
def setCallOutput (e : UnifiedEntry) (pi : Nat) (out : String) : UnifiedEntry :=
  match e.parts[pi]? with
  | some p =>
    match p.content with
    | UContent.toolCallC tc =>
      { e with parts := e.parts.set pi ⟨p.ptype, UContent.toolCallC { tc with output := out }⟩ }
    | _ => e
  | none => e

/-- The same write lifted to the arena. -/
def arenaMutate (arena : List UnifiedEntry) (ei pi : Nat) (out : String) : List UnifiedEntry :=
  match arena[ei]? with
  | some e => arena.set ei (setCallOutput e pi out)
  | none => arena

/-- `ClaudeNormalizer`'s mutable state in arena form. -/
structure CState where
  arena : List UnifiedEntry
  pendingMap : List (String × (Nat × Nat))
  pendingList : List Nat
deriving DecidableEq, Repr

/-- The state of a freshly constructed normalizer (`NewClaudeNormalizer`). -/
def initCState : CState := ⟨[], [], []⟩

/-- One emission: either a value the normalizer will never touch again, or
a pointer into the arena. -/
inductive CEmit where
  | direct (e : UnifiedEntry)
  | buffered (i : Nat)
deriving DecidableEq, Repr

/-- Whether an assistant part triggers registration in `pendingToolCalls`:
a `tool_call`-typed part whose content really is a tool call with a
nonempty id. -/
def isRegCall (p : UnifiedPart) : Bool :=
  p.ptype = "tool_call" &&
    (match p.content with
     | UContent.toolCallC tc => decide (tc.id ≠ "")
     | _ => false)

/-- One iteration of the registration loop of the assistant branch of
`NormalizeLine` (`pendingToolCalls[tc.ID] = (entry, i)`), over the
enumerated parts of the entry being buffered at arena index `ei`. -/
def regStep (ei : Nat) (m : List (String × (Nat × Nat))) (ip : Nat × UnifiedPart) :
    List (String × (Nat × Nat)) :=
  match ip.2.content with
  | UContent.toolCallC tc =>
    if ip.2.ptype = "tool_call" ∧ tc.id ≠ "" then mapInsert m tc.id (ei, ip.1) else m
  | _ => m

/-- The accumulator of the tool-result loop in the user branch of
`NormalizeLine`: the (possibly mutated) arena and pending map, the last
matched arena index (`entryToEmit`), and the collected non-result parts
(`textParts`). -/
structure UserAcc where
  arena : List UnifiedEntry
  pmap : List (String × (Nat × Nat))
  emitIdx : Option Nat
  textParts : List UnifiedPart
deriving Repr

/-- One step of the user-branch loop over the record's parts. -/
def userStep (acc : UserAcc) (p : UnifiedPart) : UserAcc :=
  if p.ptype = "tool_result" then
    match p.content with
    | UContent.toolResultC tr =>
      if tr.toolCallID ≠ "" then
        match acc.pmap.lookup tr.toolCallID with
        | some (ei, pi) =>
          { arena := arenaMutate acc.arena ei pi tr.output
            pmap := mapDelete acc.pmap tr.toolCallID
            emitIdx := some ei
            textParts := acc.textParts }
        | none => acc
      else acc
    | _ => acc
  else { acc with textParts := acc.textParts ++ [p] }

/-- Whether the collected `textParts` contain a genuine text part with
nonempty text (the emission test for a user record whose results matched
nothing). -/
def hasRealText (parts : List UnifiedPart) : Bool :=
  parts.any (fun p =>
    p.ptype = "text" &&
      (match p.content with
       | UContent.textC tc => decide (tc.text ≠ "")
       | _ => false))

/-- `ClaudeNormalizer.NormalizeLine`, from the parsed record onward. -/
def normalizeClaudeLine (s : CState) (r : ClaudeRecord) : CState × Option CEmit :=
  if r.rtype ≠ "user" ∧ r.rtype ≠ "assistant" then (s, none)
  else
    let entry := entryOfRecord r
    if r.rtype = "assistant" then
      if entry.parts.any isRegCall then
        let ei := s.arena.length
        let m2 := entry.parts.enum.foldl (regStep ei) s.pendingMap
        (⟨s.arena ++ [entry], m2, s.pendingList ++ [ei]⟩, none)
      else (s, some (CEmit.direct entry))
    else
      if s.pendingList ≠ [] ∧ s.pendingMap ≠ [] then
        let acc := entry.parts.foldl userStep ⟨s.arena, s.pendingMap, none, []⟩
        match acc.emitIdx with
        | some ei =>
          (⟨acc.arena, acc.pmap, s.pendingList.filter (fun x => decide (x ≠ ei))⟩,
            some (CEmit.buffered ei))
        | none =>
          if hasRealText acc.textParts then
            (⟨acc.arena, acc.pmap, s.pendingList⟩, some (CEmit.direct entry))
          else
            (⟨acc.arena, acc.pmap, s.pendingList⟩, none)
      else (s, some (CEmit.direct entry))

/-- `ClaudeNormalizer.Flush`: hands out the still-pending entries and
resets the state; returns nothing when no entry is pending. -/
def flushClaude (s : CState) : CState × List CEmit :=
  if s.pendingList ≠ [] then (⟨s.arena, [], []⟩, s.pendingList.map CEmit.buffered)
  else (s, [])

/-- Processes a record stream, collecting the emissions in order. -/
def runClaudeAux : CState → List ClaudeRecord → CState × List CEmit
  | s, [] => (s, [])
  | s, r :: rest =>
    let step := normalizeClaudeLine s r
    let tail := runClaudeAux step.1 rest
    (tail.1, (match step.2 with | some e => [e] | none => []) ++ tail.2)

/-- Resolves an emission against an arena, as a Go caller dereferencing the
emitted pointers after the stream ends. -/
def resolveEmit (arena : List UnifiedEntry) : CEmit → UnifiedEntry
  | CEmit.direct e => e
  | CEmit.buffered i => (arena[i]?).getD ⟨"", 0, "", [], none, ""⟩

/-- The full caller protocol: normalize every record in order, call `Flush`
once at end of stream, and read the emitted entries. -/
def runClaude (rs : List ClaudeRecord) : List UnifiedEntry :=
  let ran := runClaudeAux initCState rs
  let fl := flushClaude ran.1
  (ran.2 ++ fl.2).map (resolveEmit fl.1.arena)

/-! ## Session resolution (`ResolveSessionInfo`) -/

/-- Single-pass predicate of strategy 2 of `ResolveSessionInfo`: for each
descriptor the session id is compared first, then (when the spec parses as
`plan/job.md`) the jobs list. -/
def idOrJobMatch (spec : String) (s : SessionInfo) : Bool :=
  let comps := splitChar '/' spec
  let isPlanJobSpec := decide (comps.length = 2) && strHasSuffix (comps.getD 1 "") ".md"
  decide (s.sessionID = spec)
    || (isPlanJobSpec && s.jobs.any (fun j =>
          decide (j.plan = comps.getD 0 "" ∧ j.job = comps.getD 1 "")))

/-- Strategy 3 predicate of `ResolveSessionInfo`: plan name from the parent
directory of the spec path, job name from its filename. -/
def filePathJobMatch (spec : String) (s : SessionInfo) : Bool :=
  s.jobs.any (fun j =>
    decide (j.plan = baseName (dirName spec) ∧ j.job = baseName spec))

/-- `ResolveSessionInfo`, from the scanned session list onward.  `absSpec`
injects the result of `filepath.Abs(spec)` (`none` on failure) and
`statOk` the success of `os.Stat(spec)`.  An error return is modelled as
`none`. -/
def resolveSessionInfo (sessions : List SessionInfo) (absSpec : Option String)
    (statOk : Bool) (spec : String) : Option SessionInfo :=
  if sessions.isEmpty then none
  else
    let s1 :=
      match absSpec with
      | some a => sessions.find? (fun s => decide (s.logFilePath = a))
      | none => none
    match s1 with
    | some s => some s
    | none =>
      match sessions.find? (idOrJobMatch spec) with
      | some s => some s
      | none =>
        if statOk then sessions.find? (filePathJobMatch spec)
        else none

/-! ## Theorems: OpenCode normalizer (C10) -/

/-- Every part produced by the part-conversion switch is a text or
tool-call part. -/
theorem ocPartStep_types (acc : List UnifiedPart) (part : OCPart)
    (h : ∀ p ∈ acc, p.ptype = "text" ∨ p.ptype = "tool_call") :
    ∀ p ∈ ocPartStep acc part, p.ptype = "text" ∨ p.ptype = "tool_call" := by
  intro p hp
  unfold ocPartStep at hp
  repeat' split at hp
  all_goals
    first
      | exact h p hp
      | (rcases List.mem_append.1 hp with h1 | h1
         · exact h p h1
         · simp only [List.mem_singleton] at h1
           subst h1
           simp)

/-- Folding the part-conversion switch preserves the text/tool-call shape
of the accumulator. -/
theorem ocFold_types (l : List OCPart) :
    ∀ acc : List UnifiedPart,
      (∀ p ∈ acc, p.ptype = "text" ∨ p.ptype = "tool_call") →
      ∀ p ∈ l.foldl ocPartStep acc, p.ptype = "text" ∨ p.ptype = "tool_call" := by
  induction l with
  | nil => intro acc h p hp; exact h p hp
  | cons a t ih => intro acc h p hp; exact ih _ (ocPartStep_types acc a h) p hp

/-- Every part of a normalized OpenCode entry is a text or tool-call
part. -/
theorem ocNormalizeEntry_part_types (oc : OCTranscriptEntry) :
    ∀ p ∈ (ocNormalizeEntry oc).parts, p.ptype = "text" ∨ p.ptype = "tool_call" :=
  ocFold_types oc.parts [] (by intro p hp; cases hp)

/-- Membership in the `NormalizeAll` fold comes from the accumulator or
from a normalized entry that passed the nonempty-parts filter. -/
theorem ocAll_mem (l : List OCTranscriptEntry) :
    ∀ (acc : List UnifiedEntry) (e : UnifiedEntry),
      e ∈ l.foldl ocAllStep acc →
      e ∈ acc ∨ ∃ oc, e = ocNormalizeEntry oc ∧ (ocNormalizeEntry oc).parts.length > 0 := by
  induction l with
  | nil => intro acc e he; exact Or.inl he
  | cons a t ih =>
    intro acc e he
    rcases ih (ocAllStep acc a) e he with h | h
    · simp only [ocAllStep] at h
      split at h
      · rcases List.mem_append.1 h with h1 | h1
        · exact Or.inl h1
        · simp only [List.mem_singleton] at h1
          subst h1
          exact Or.inr ⟨a, rfl, by assumption⟩
      · exact Or.inl h
    · exact Or.inr h

/-- C10: every unified entry returned by `OpenCodeNormalizer.NormalizeAll`
contains at least one part, and none of its parts is a step-start or
step-finish marker; assembled messages whose parts are only step markers
or empty text yield no unified entry at all. -/
theorem opencode_normalizeAll_no_step_markers :
    ∀ (entries : List OCTranscriptEntry) (e : UnifiedEntry), e ∈ ocNormalizeAll entries →
      e.parts ≠ [] ∧ ∀ p ∈ e.parts, p.ptype ≠ "step-start" ∧ p.ptype ≠ "step-finish" := by
  intro es e he
  rcases ocAll_mem es [] e he with h | ⟨oc, rfl, hlen⟩
  · cases h
  · refine ⟨?_, ?_⟩
    · intro hnil
      rw [hnil] at hlen
      simp at hlen
    · intro p hp
      rcases ocNormalizeEntry_part_types oc p hp with h | h <;>
        exact ⟨by rw [h]; decide, by rw [h]; decide⟩

/-- A concrete assembled OpenCode entry: one text part next to two step
markers. -/
def ocWitnessEntry : OCTranscriptEntry :=
  ⟨"assistant", 0,
    [⟨"step-start", "prt_0", OCContent.otherP⟩,
     ⟨"text", "prt_1", OCContent.textP ⟨"hi"⟩⟩,
     ⟨"step-finish", "prt_2", OCContent.otherP⟩],
    "msg_w", none⟩

/-- Witness for C10 at a concrete session: the normalized entry is
nonempty and free of step markers. -/
theorem opencode_normalizeAll_no_step_markers_witness :
    (ocNormalizeEntry ocWitnessEntry).parts ≠ [] ∧
    ∀ p ∈ (ocNormalizeEntry ocWitnessEntry).parts,
      p.ptype ≠ "step-start" ∧ p.ptype ≠ "step-finish" :=
  opencode_normalizeAll_no_step_markers [ocWitnessEntry] (ocNormalizeEntry ocWitnessEntry)
    (by decide)

/-! ## Theorems: OpenCode assembler sort (C7) -/

instance : IsTotal OCTranscriptEntry ocEntryLE :=
  ⟨fun a b => Int.le_total a.timestamp b.timestamp⟩

instance : IsTrans OCTranscriptEntry ocEntryLE :=
  ⟨fun _ _ _ hab hbc => le_trans hab hbc⟩

/-- The assembled transcript is a permutation of the entries built from
the listed message files. -/
theorem assembleTranscript_perm (msgs : List OCMessage) :
    (assembleTranscript msgs).Perm (msgs.map assembleEntry) :=
  List.perm_insertionSort _ _

/-- The assembled transcript is sorted by creation timestamp. -/
theorem assembleTranscript_sorted (msgs : List OCMessage) :
    List.Pairwise ocEntryLE (assembleTranscript msgs) :=
  List.sorted_insertionSort _ _

/-- Distinct creation times in the message files give distinct timestamps
in the assembled transcript. -/
theorem assembleTranscript_ts_nodup (msgs : List OCMessage)
    (h : (msgs.map OCMessage.created).Nodup) :
    ((assembleTranscript msgs).map OCTranscriptEntry.timestamp).Nodup := by
  have hinj : Function.Injective (fun c : Int => c * 1000000) := by
    intro a b hab
    have : a * 1000000 = b * 1000000 := hab
    omega
  have h1 : ((msgs.map assembleEntry).map OCTranscriptEntry.timestamp).Nodup := by
    rw [List.map_map]
    have : (OCTranscriptEntry.timestamp ∘ assembleEntry) =
        (fun c : Int => c * 1000000) ∘ OCMessage.created := by
      funext m
      rfl
    rw [this, ← List.map_map]
    exact h.map hinj
  exact (((assembleTranscript_perm msgs).map OCTranscriptEntry.timestamp).symm).nodup h1

/-- Sorted-by-≤ plus pairwise-distinct timestamps gives strict
sortedness. -/
theorem sorted_strict_of_nodup (l : List OCTranscriptEntry)
    (hle : List.Pairwise ocEntryLE l)
    (hnd : (l.map OCTranscriptEntry.timestamp).Nodup) :
    List.Pairwise (fun a b : OCTranscriptEntry => a.timestamp < b.timestamp) l := by
  have hne : List.Pairwise
      (fun a b : OCTranscriptEntry => a.timestamp ≠ b.timestamp) l :=
    List.pairwise_map.mp hnd
  exact (hle.and hne).imp (fun h => lt_of_le_of_ne h.1 h.2)

/-- C7: the entries returned by `AssembleTranscript` are sorted by message
creation timestamp; for messages with pairwise-distinct creation times the
assembled sequence is strictly sorted and is independent of the order in
which the message files were listed on disk. -/
theorem opencode_assemble_sorted_by_timestamp :
    ∀ msgs1 msgs2 : List OCMessage,
      List.Pairwise ocEntryLE (assembleTranscript msgs1) ∧
      (msgs1.Perm msgs2 → (msgs1.map OCMessage.created).Nodup →
        assembleTranscript msgs1 = assembleTranscript msgs2 ∧
        List.Pairwise (fun a b : OCTranscriptEntry => a.timestamp < b.timestamp)
          (assembleTranscript msgs1)) := by
  intro msgs1 msgs2
  refine ⟨assembleTranscript_sorted msgs1, ?_⟩
  intro hperm hnd
  have hnd2 : (msgs2.map OCMessage.created).Nodup :=
    (hperm.map OCMessage.created).nodup hnd
  have hs1 := sorted_strict_of_nodup _ (assembleTranscript_sorted msgs1)
    (assembleTranscript_ts_nodup msgs1 hnd)
  have hs2 := sorted_strict_of_nodup _ (assembleTranscript_sorted msgs2)
    (assembleTranscript_ts_nodup msgs2 hnd2)
  have hanti : IsAntisymm OCTranscriptEntry
      (fun a b : OCTranscriptEntry => a.timestamp < b.timestamp) :=
    ⟨fun a b h1 h2 => absurd (lt_trans h1 h2) (lt_irrefl _)⟩
  have hp : (assembleTranscript msgs1).Perm (assembleTranscript msgs2) :=
    ((assembleTranscript_perm msgs1).trans (hperm.map assembleEntry)).trans
      (assembleTranscript_perm msgs2).symm
  exact ⟨@List.eq_of_perm_of_sorted _ _ hanti _ _ hp hs1 hs2, hs1⟩

/-- A concrete message whose file is listed first but was created later. -/
def ocMsgLate : OCMessage := ⟨"msg_1", "user", 10, 0, 0, 0, 0, 0, []⟩

/-- A concrete message whose file is listed second but was created
first. -/
def ocMsgEarly : OCMessage := ⟨"msg_2", "assistant", 5, 0, 0, 0, 0, 0, []⟩

/-- Witness for C7 at a concrete out-of-order listing. -/
theorem opencode_assemble_sorted_by_timestamp_witness :
    assembleTranscript [ocMsgLate, ocMsgEarly] = assembleTranscript [ocMsgEarly, ocMsgLate] ∧
    List.Pairwise (fun a b : OCTranscriptEntry => a.timestamp < b.timestamp)
      (assembleTranscript [ocMsgLate, ocMsgEarly]) :=
  (opencode_assemble_sorted_by_timestamp [ocMsgLate, ocMsgEarly] [ocMsgEarly, ocMsgLate]).2
    (by decide) (by decide)

/-! ## Theorems: Codex user-message environment marker (C8) -/

/-- A marked block anywhere in the content array makes the loop abort the
record. -/
theorem codexCollectText_none_of_marked :
    ∀ blocks : List CodexBlock, blocks.any codexBlockMarked = true →
      codexCollectText blocks = none := by
  intro blocks h
  induction blocks with
  | nil => cases h
  | cons b rest ih =>
    simp only [List.any_cons, Bool.or_eq_true] at h
    rcases h with hb | hrest
    · simp only [codexBlockMarked, Bool.and_eq_true] at hb
      obtain ⟨he, hm⟩ := hb
      simp [codexCollectText, he, hm]
    · by_cases he : codexBlockEligible b = true
      · by_cases hm : strContains b.text envMarker = true
        · simp [codexCollectText, he, hm]
        · simp [codexCollectText, he, Bool.eq_false_iff.2 hm, ih hrest]
      · simp [codexCollectText, Bool.eq_false_iff.2 he, ih hrest]

/-- With no marked block, the loop collects exactly the eligible blocks as
text parts, in order. -/
theorem codexCollectText_of_unmarked :
    ∀ blocks : List CodexBlock, blocks.any codexBlockMarked = false →
      codexCollectText blocks = some (blocks.filterMap (fun b =>
        if codexBlockEligible b then some ⟨"text", UContent.textC ⟨b.text⟩⟩ else none)) := by
  intro blocks h
  induction blocks with
  | nil => rfl
  | cons b rest ih =>
    simp only [List.any_cons, Bool.or_eq_false_iff] at h
    obtain ⟨hb, hrest⟩ := h
    by_cases he : codexBlockEligible b = true
    · have hm : strContains b.text envMarker = false := by
        rw [codexBlockMarked, he, Bool.true_and] at hb
        exact hb
      simp [codexCollectText, List.filterMap_cons, he, hm, ih hrest]
    · simp [codexCollectText, List.filterMap_cons, Bool.eq_false_iff.2 he, ih hrest]

/-- C8 amended: for a `response_item`/`message`/user record, any eligible
content block containing the environment-context marker suppresses the
whole record (no entry at all, other blocks included); with no such block,
the eligible blocks become `Text` parts in order and the record yields an
entry exactly when at least one part was produced. -/
theorem codex_user_message_env_amended :
    ∀ r : CodexRecord,
      r.hasPayload = true → r.rtype = "response_item" → r.ptype = "message" →
      r.role = "user" →
      (r.content.any codexBlockMarked = true → codexNormalizeLine r = none) ∧
      (r.content.any codexBlockMarked = false →
        codexNormalizeLine r =
          (let parts := r.content.filterMap (fun b =>
             if codexBlockEligible b then some ⟨"text", UContent.textC ⟨b.text⟩⟩ else none)
           if parts.length = 0 then none
           else some ⟨"user", r.ts, "", parts, none, "codex"⟩)) := by
  intro r h1 h2 h3 h4
  constructor
  · intro hm
    simp [codexNormalizeLine, h1, h2, h3, h4,
      codexCollectText_none_of_marked r.content hm]
  · intro hm
    simp [codexNormalizeLine, h1, h2, h3, h4,
      codexCollectText_of_unmarked r.content hm]

/-- A Codex user record with good text blocks on either side of an
environment-context block. -/
def codexEnvRecord : CodexRecord :=
  ⟨true, "response_item", "message", "user", 0, none, none,
    [⟨"input_text", "hello"⟩,
     ⟨"input_text", "x<environment_context>y"⟩,
     ⟨"input_text", "world"⟩],
    "", "", none, "", 0⟩

/-- Counterexample to C8 as stated: the record carries two eligible,
marker-free text blocks, yet `NormalizeLine` produces no entry at all —
the marker discards the whole record, not just the marked block. -/
theorem codex_env_marker_counterexample :
    codexNormalizeLine codexEnvRecord = none ∧
    (codexEnvRecord.content.filter
      (fun b => codexBlockEligible b && !(strContains b.text envMarker))).length = 2 := by
  decide

/-- A Codex user record with one eligible block and one irrelevant
block. -/
def codexCleanRecord : CodexRecord :=
  ⟨true, "response_item", "message", "user", 5, none, none,
    [⟨"input_text", "hello"⟩, ⟨"other", "zz"⟩],
    "", "", none, "", 0⟩

/-- Witness for the amended C8 at a marker-free record. -/
theorem codex_user_message_env_amended_witness :
    codexNormalizeLine codexCleanRecord =
      some ⟨"user", 5, "", [⟨"text", UContent.textC ⟨"hello"⟩⟩], none, "codex"⟩ := by
  have h := (codex_user_message_env_amended codexCleanRecord rfl rfl rfl rfl).2 (by decide)
  rw [h]
  decide

/-! ## Theorems: job-association heuristic (C9) -/

/-- Following the claim's words, for comparison with the source: find the
text between the "Read the file" phrase and the "and execute the agent
job" phrase, split it into space-separated tokens and take the first token
rooted at "/", accepting it only if it contains "/plans/" and ends in
".md", with its last two path components as (plan, job). -/
def parsePlanInfoClaimed (content : String) : String × String :=
  if strContains content "Read the file" ∧ strContains content "and execute the agent job" then
    match strIndexS content "Read the file", strIndexS content "and execute the agent job" with
    | some i, some j =>
      let between := String.mk ((content.data.take j).drop (i + "Read the file".data.length))
      let tokens := splitChar ' ' between
      match tokens.find? (fun t => strHasPrefix t "/") with
      | some tok =>
        if strContains tok "/plans/" ∧ strHasSuffix tok ".md" then
          let comps := splitChar '/' tok
          if comps.length ≥ 2 then
            (comps.getD (comps.length - 2) "", comps.getD (comps.length - 1) "")
          else ("", "")
        else ("", "")
      | none => ("", "")
    | _, _ => ("", "")
  else ("", "")

/-- A text whose first "/" occurs before the trigger phrases and is
followed by " and": the claimed rule extracts the plan/job path between
the phrases, the source extracts nothing. -/
def planInfoCexText : String :=
  "a/b and c. Read the file /x/plans/demo/01.md and execute the agent job"

/-- Counterexample to C9 as stated: on a text containing both phrases and
a well-formed plan path between them, the source heuristic returns
nothing, while the claimed first-token-between-the-phrases rule returns
(demo, 01.md) — the source scans from the first "/" anywhere in the text,
not from the first path token between the phrases. -/
theorem parsePlanInfo_counterexample :
    parsePlanInfo planInfoCexText = ("", "") ∧
    parsePlanInfoClaimed planInfoCexText = ("demo", "01.md") := by
  decide

/-- C9 amended: the two concrete evaluations of the claim hold, and in
general a successful extraction comes from a substring of the text that
starts at the first "/" anywhere in the text, contains "/plans/", ends in
".md", and whose last two "/"-separated components are the returned
(plan, job). -/
theorem parsePlanInfo_amended :
    parsePlanInfo "Read the file /x/plans/demo/01-setup.md and execute the agent job" =
      ("demo", "01-setup.md") ∧
    parsePlanInfo "Read the file /x/plans/demo/01-setup and execute the agent job" = ("", "") ∧
    ∀ content plan job, parsePlanInfo content = (plan, job) → (plan, job) ≠ ("", "") →
      strContains content "Read the file" = true ∧
      strContains content "and execute the agent job" = true ∧
      ∃ path : String,
        path.data <:+: content.data ∧
        strContains path "/plans/" = true ∧
        strHasSuffix path ".md" = true ∧
        (splitChar '/' path).length ≥ 2 ∧
        plan = (splitChar '/' path).getD ((splitChar '/' path).length - 2) "" ∧
        job = (splitChar '/' path).getD ((splitChar '/' path).length - 1) "" := by
  refine ⟨by decide, by decide, ?_⟩
  intro content plan job hpj hne
  unfold parsePlanInfo at hpj
  split at hpj
  case isFalse => exact absurd hpj.symm hne
  case isTrue hcond =>
    obtain ⟨hc1, hc2⟩ := hcond
    refine ⟨hc1, hc2, ?_⟩
    split at hpj
    case h_1 => exact absurd hpj.symm hne
    case h_2 start hstart =>
      simp only at hpj
      split at hpj
      case h_1 => exact absurd hpj.symm hne
      case h_2 e hstop =>
        split at hpj
        case isFalse => exact absurd hpj.symm hne
        case isTrue hpath =>
          obtain ⟨hplans, hmd⟩ := hpath
          split at hpj
          case isFalse => exact absurd hpj.symm hne
          case isTrue hlen =>
            obtain ⟨hp1, hp2⟩ := Prod.mk.injEq .. ▸ hpj
            refine ⟨String.mk ((content.data.drop start).take e), ?_, hplans, hmd, hlen,
              hp1.symm, hp2.symm⟩
            exact (List.take_prefix _ _).isInfix.trans (List.drop_suffix _ _).isInfix

/-- Witness for the amended C9 at the claim's own example string. -/
theorem parsePlanInfo_amended_witness :
    strContains "Read the file /x/plans/demo/01-setup.md and execute the agent job"
      "Read the file" = true ∧
    strContains "Read the file /x/plans/demo/01-setup.md and execute the agent job"
      "and execute the agent job" = true ∧
    ∃ path : String,
      path.data <:+: ("Read the file /x/plans/demo/01-setup.md and execute the agent job").data ∧
      strContains path "/plans/" = true ∧
      strHasSuffix path ".md" = true ∧
      (splitChar '/' path).length ≥ 2 ∧
      "demo" = (splitChar '/' path).getD ((splitChar '/' path).length - 2) "" ∧
      "01-setup.md" = (splitChar '/' path).getD ((splitChar '/' path).length - 1) "" :=
  parsePlanInfo_amended.2.2
    "Read the file /x/plans/demo/01-setup.md and execute the agent job"
    "demo" "01-setup.md" (by decide) (by decide)

/-! ## Theorems: session resolution (C6) -/

/-- A session listed first whose jobs match the spec as `plan/job.md`. -/
def sessionWithJob : SessionInfo :=
  ⟨"sX", "proj", "/proj", "", "", [⟨"demo", "01.md", 3⟩], "/logs/a.jsonl", 0, "claude"⟩

/-- A session listed second whose native id equals the spec verbatim. -/
def sessionWithIdAsSpec : SessionInfo :=
  ⟨"demo/01.md", "proj", "/proj", "", "", [], "/logs/b.jsonl", 0, "claude"⟩

/-- Counterexample to C6 as stated: rule (b) (exact session-id match) does
not take priority over rule (c) (plan/job match) across descriptors — the
two are checked in a single pass, so the earlier descriptor's plan/job
match wins over the later descriptor's exact session-id match. -/
theorem resolveSessionInfo_counterexample :
    resolveSessionInfo [sessionWithJob, sessionWithIdAsSpec] none false "demo/01.md" =
      some sessionWithJob ∧
    sessionWithIdAsSpec.sessionID = "demo/01.md" ∧
    sessionWithJob.sessionID ≠ "demo/01.md" := by
  decide

/-- C6 amended: an exact absolute-path match takes priority over
everything; after it, a single pass over the descriptors checks, per
descriptor, the session id first and then (when the spec parses as
`plan/job.md`) the jobs list, so rules (b) and (c) are interleaved per
descriptor rather than prioritized across descriptors; last comes the
readable-file-path jobs match; when nothing matches (or no session was
discovered at all) the call reports an error and returns no descriptor. -/
theorem resolveSessionInfo_amended :
    ∀ (sessions : List SessionInfo) (absSpec : Option String) (statOk : Bool) (spec : String),
      sessions ≠ [] →
      (∀ a s, absSpec = some a →
        sessions.find? (fun s2 => decide (s2.logFilePath = a)) = some s →
        resolveSessionInfo sessions absSpec statOk spec = some s) ∧
      ((match absSpec with
        | none => True
        | some a => sessions.find? (fun s2 => decide (s2.logFilePath = a)) = none) →
        resolveSessionInfo sessions absSpec statOk spec =
          ((sessions.find? (idOrJobMatch spec)).orElse (fun _ =>
            if statOk then sessions.find? (filePathJobMatch spec) else none))) := by
  intro sessions absSpec statOk spec hne
  have hemp : sessions.isEmpty = false := by
    cases sessions with
    | nil => exact absurd rfl hne
    | cons a t => rfl
  constructor
  · intro a s ha hf
    subst ha
    unfold resolveSessionInfo
    rw [hemp]
    simp only [Bool.false_eq_true, if_false, hf]
  · intro hnone
    unfold resolveSessionInfo
    rw [hemp]
    simp only [Bool.false_eq_true, if_false]
    cases absSpec with
    | none =>
      cases hfind : sessions.find? (idOrJobMatch spec) with
      | none => simp [hfind, Option.orElse]
      | some s => simp [hfind, Option.orElse]
    | some a =>
      dsimp only at hnone ⊢
      rw [hnone]
      cases hfind : sessions.find? (idOrJobMatch spec) with
      | none => simp [hfind, Option.orElse]
      | some s => simp [hfind, Option.orElse]

/-- A single discovered session for the amended-C6 witness. -/
def sessionForResolve : SessionInfo :=
  ⟨"abc-123", "proj", "/proj", "", "", [⟨"demo", "01.md", 3⟩], "/logs/w.jsonl", 0, "claude"⟩

/-- Witness for the amended C6: an absolute-path match returns that
descriptor, and with no path match the single-pass lookup runs. -/
theorem resolveSessionInfo_amended_witness :
    resolveSessionInfo [sessionForResolve] (some "/logs/w.jsonl") false "x" =
      some sessionForResolve ∧
    resolveSessionInfo [sessionForResolve] none false "abc-123" =
      (([sessionForResolve].find? (idOrJobMatch "abc-123")).orElse (fun _ =>
        if false then [sessionForResolve].find? (filePathJobMatch "abc-123") else none)) :=
  ⟨(resolveSessionInfo_amended [sessionForResolve] (some "/logs/w.jsonl") false "x"
      (by decide)).1 "/logs/w.jsonl" sessionForResolve rfl (by decide),
   (resolveSessionInfo_amended [sessionForResolve] none false "abc-123"
      (by decide)).2 trivial⟩

/-! ## Theorems: scanner merge precedence (C5) -/

/-- An archived copy of session s1 inside a plan artifact directory. -/
def archivedS1 : SessionInfo :=
  ⟨"s1", "pn", "/pp", "", "", [], "/plans/p/.artifacts/j/transcript.jsonl", 7, "claude"⟩

/-- A live-scanned transcript file for the same session s1. -/
def liveS1 : LiveParse :=
  ⟨"/home/u/.claude/projects/x/s1.jsonl", "s1", "/cwd", 5, [], true⟩

/-- Counterexample to C5 as stated: with an empty registry, a session id
present both in the archive and in the live scan is resolved to the
ARCHIVED entry and the live-scan parse is skipped — the opposite of the
claimed suppression of the archived entry by the live scan. -/
theorem scanMerge_archive_counterexample :
    scanMerge (fun c => (c, c, "", "")) (fun _ => none) [] [archivedS1] [liveS1] [] =
      [archivedS1] ∧
    archivedS1.logFilePath ≠ liveS1.logPath := by
  decide

/-- The archived-id filter left after the registry claims `sid` keeps
exactly the archived entries with a nonempty id different from `sid`. -/
theorem archivedFilter_eq (archived : List SessionInfo) (sid : String) :
    archived.filter (fun a => decide (a.sessionID ∈
      (((archived.filter (fun a2 => decide (a2.sessionID ≠ ""))).map
        (fun x => x.sessionID)).filter (fun x => decide (x ≠ sid))))) =
    archived.filter (fun a => decide (a.sessionID ≠ "") && decide (a.sessionID ≠ sid)) := by
  apply List.filter_congr
  intro a ha
  have hiff : (a.sessionID ∈
      (((archived.filter (fun a2 => decide (a2.sessionID ≠ ""))).map
        (fun x => x.sessionID)).filter (fun x => decide (x ≠ sid)))) ↔
      (a.sessionID ≠ "" ∧ a.sessionID ≠ sid) := by
    constructor
    · intro hm
      rcases List.mem_filter.1 hm with ⟨hmem, hneq⟩
      rcases List.mem_map.1 hmem with ⟨b, hb, hba⟩
      rcases List.mem_filter.1 hb with ⟨_, hbne⟩
      exact ⟨by rw [← hba]; exact of_decide_eq_true hbne, of_decide_eq_true hneq⟩
    · intro h
      exact List.mem_filter.2 ⟨List.mem_map.2
        ⟨a, List.mem_filter.2 ⟨ha, decide_eq_true h.1⟩, rfl⟩, decide_eq_true h.2⟩
  calc decide (a.sessionID ∈
      (((archived.filter (fun a2 => decide (a2.sessionID ≠ ""))).map
        (fun x => x.sessionID)).filter (fun x => decide (x ≠ sid))))
      = decide (a.sessionID ≠ "" ∧ a.sessionID ≠ sid) := decide_eq_decide.2 hiff
    _ = (decide (a.sessionID ≠ "") && decide (a.sessionID ≠ sid)) := Bool.decide_and _ _

/-- C5 amended: for a session id present in both the registry and the live
scan, the descriptor comes from the registry: its artifact path is the
registry transcript path when that is nonempty (falling back to the live
file path otherwise), its job list carries the registry plan and job names
(with the line index taken from the live parse when one is available), and
any archived entry for that id is suppressed; an archived entry is NOT
suppressed by a live-scan hit alone — with no registry entry, the live
parse is skipped and the archived entry is kept. -/
theorem scanMerge_registry_precedence_amended :
    ∀ (ppp : String → String × String × String × String) (statMT : String → Option Int)
      (sid : String) (md : SessionMetadata) (L : LiveParse)
      (archived opencodeSessions : List SessionInfo)
      (pp pn wt eco : String),
      L.sessionID = sid →
      ppp md.workingDirectory = (pp, pn, wt, eco) →
      md.transcriptPath ≠ "" →
      md.planName ≠ "" →
      md.jobFilePath ≠ "" →
      scanMerge ppp statMT [(sid, md)] archived [L] opencodeSessions =
        ⟨sid, pn, pp, wt, eco,
          [⟨md.planName, baseName md.jobFilePath,
            match L.jobs with | j :: _ => j.lineIndex | [] => 0⟩],
          md.transcriptPath, md.startedAt,
          if md.provider ≠ "" then md.provider else providerOfPath md.transcriptPath⟩
        :: (archived.filter (fun a => decide (a.sessionID ≠ "") && decide (a.sessionID ≠ sid))
            ++ opencodeSessions) := by
  intro ppp statMT sid md L archived oc pp pn wt eco hL hppp htp hplan hjob
  subst hL
  have hlk : List.lookup L.sessionID [(L.sessionID, md)] = some md := by simp [List.lookup]
  unfold scanMerge scanStep
  simp only [List.foldl_cons, List.foldl_nil, hlk]
  rw [hppp]
  simp only [List.not_mem_nil, if_false]
  rw [if_pos ⟨hplan, hjob⟩, if_pos htp]
  simp only [List.nil_append, List.append_assoc, List.singleton_append]
  rw [archivedFilter_eq archived L.sessionID]
  simp [List.cons_append]

/-- Registry metadata for the amended-C5 witness. -/
def mdW : SessionMetadata := ⟨"flow-1", "s1", "/reg/t.jsonl", "demo", "/plans/demo/01.md", "/wd", "", 9⟩

/-- Live parse for the amended-C5 witness. -/
def liveW : LiveParse := ⟨"/live/x.jsonl", "s1", "/cwd", 5, [⟨"p", "j", 4⟩], true⟩

/-- Archived sessions for the amended-C5 witness. -/
def archW : List SessionInfo :=
  [⟨"s1", "a", "/a", "", "", [], "/arch/t.jsonl", 7, "claude"⟩,
   ⟨"s2", "b", "/b", "", "", [], "/arch2/t.jsonl", 8, "claude"⟩]

/-- Witness for the amended C5: registry data wins for s1 and the archived
copy of s1 is suppressed while the archived s2 survives. -/
theorem scanMerge_registry_precedence_amended_witness :
    scanMerge (fun c => (c, c, "", "")) (fun _ => none) [("s1", mdW)] archW [liveW] [] =
      ⟨"s1", "/wd", "/wd", "", "",
        [⟨mdW.planName, baseName mdW.jobFilePath,
          match liveW.jobs with | j :: _ => j.lineIndex | [] => 0⟩],
        mdW.transcriptPath, mdW.startedAt,
        if mdW.provider ≠ "" then mdW.provider else providerOfPath mdW.transcriptPath⟩
      :: (archW.filter (fun a => decide (a.sessionID ≠ "") && decide (a.sessionID ≠ "s1"))
          ++ []) :=
  scanMerge_registry_precedence_amended (fun c => (c, c, "", "")) (fun _ => none)
    "s1" mdW liveW archW [] "/wd" "/wd" "" "" rfl rfl (by decide) (by decide) (by decide)

/-! ## Theorems: Claude normalizer (C1-C4)

Infrastructure: a well-formedness invariant on reachable normalizer states,
pointwise preservation of the arena (mutations touch only tool-call output
fields), and a coverage property tying arena entries to emissions. -/

/-- The call id carried by a part, when its content is a tool call. -/
def partIdOf (p : UnifiedPart) : Option String :=
  match p.content with
  | UContent.toolCallC tc => some tc.id
  | _ => none

/-- The tool-call id skeleton of an entry; in-place result merging never
changes it. -/
def partIds (e : UnifiedEntry) : List (Option String) :=
  e.parts.map partIdOf

/-- Whether any record of the stream carries a tool result for call id
`t`. -/
def streamHasResultFor (rs : List ClaudeRecord) (t : String) : Bool :=
  rs.any (fun r => (recParts r).any (fun p =>
    match p.content with
    | UContent.toolResultC tr => decide (tr.toolCallID = t)
    | _ => false))

/-- The outputs of every tool call with id `t` across a list of emitted
entries. -/
def toolCallOutputsFor (es : List UnifiedEntry) (t : String) : List String :=
  (es.map (fun e => e.parts.filterMap (fun p =>
    match p.content with
    | UContent.toolCallC tc => if tc.id = t then some tc.output else none
    | _ => none))).flatten

/-- A pending-map binding is well formed: it points at an arena part whose
content is a tool call with the binding's key as id. -/
def mapRefOk (arena : List UnifiedEntry) (kv : String × (Nat × Nat)) : Prop :=
  ∃ e, arena[kv.2.1]? = some e ∧
    ∃ p, e.parts[kv.2.2]? = some p ∧
      ∃ tc, p.content = UContent.toolCallC tc ∧ tc.id = kv.1

/-- Well-formedness of a reachable normalizer state: pending indices are in
range and strictly increasing (buffer order is arena order), every pending
binding is well formed, and only assistant entries are ever buffered. -/
def CWF (s : CState) : Prop :=
  (∀ i ∈ s.pendingList, i < s.arena.length) ∧
  s.pendingList.Pairwise (· < ·) ∧
  (∀ kv ∈ s.pendingMap, mapRefOk s.arena kv) ∧
  (∀ e ∈ s.arena, e.role = "assistant")

/-- Every arena entry is pending or has been emitted. -/
def covers (s : CState) (evs : List CEmit) : Prop :=
  ∀ i, i < s.arena.length → i ∈ s.pendingList ∨ CEmit.buffered i ∈ evs

/-- No tool call with id `t` anywhere in the arena carries a nonempty
output. -/
def noToolOutput (arena : List UnifiedEntry) (t : String) : Prop :=
  ∀ e ∈ arena, ∀ p ∈ e.parts, ∀ tc, p.content = UContent.toolCallC tc →
    tc.id = t → tc.output = ""

/-- The record carries no tool result for call id `t`. -/
def recordNoResultFor (r : ClaudeRecord) (t : String) : Prop :=
  ∀ p ∈ recParts r, ∀ tr, p.content = UContent.toolResultC tr → tr.toolCallID ≠ t

/-- Membership after a map insert: the new binding or an old one. -/
theorem mapInsert_mem : ∀ (m : List (String × (Nat × Nat))) (k : String) (v : Nat × Nat) kv,
    kv ∈ mapInsert m k v → kv = (k, v) ∨ kv ∈ m := by
  intro m k v kv h
  induction m with
  | nil =>
    simp only [mapInsert, List.mem_singleton] at h
    exact Or.inl h
  | cons a t ih =>
    simp only [mapInsert] at h
    split at h
    · rcases List.mem_cons.1 h with h1 | h1
      · exact Or.inl h1
      · exact Or.inr (List.mem_cons_of_mem a h1)
    · rcases List.mem_cons.1 h with h1 | h1
      · exact Or.inr (h1 ▸ List.mem_cons_self a t)
      · rcases ih h1 with h2 | h2
        · exact Or.inl h2
        · exact Or.inr (List.mem_cons_of_mem a h2)

/-- Membership after a map delete implies membership before. -/
theorem mapDelete_mem (m : List (String × (Nat × Nat))) (k : String) (kv : String × (Nat × Nat))
    (h : kv ∈ mapDelete m k) : kv ∈ m :=
  (List.mem_filter.1 h).1

/-- A successful association-list lookup produces a member binding. -/
theorem lookup_mem : ∀ (m : List (String × (Nat × Nat))) (k : String) (v : Nat × Nat),
    m.lookup k = some v → (k, v) ∈ m := by
  intro m k v h
  induction m with
  | nil => cases h
  | cons a t ih =>
    rw [List.lookup] at h
    split at h
    · cases h
      have : k = a.1 := by
        have := of_decide_eq_true (by assumption : (k == a.1) = true)
        exact this
      rw [this]
      exact List.mem_cons_self _ _
    · exact List.mem_cons_of_mem a (ih h)

/-- The in-place output write preserves the role. -/
theorem setCallOutput_role (e : UnifiedEntry) (pi : Nat) (out : String) :
    (setCallOutput e pi out).role = e.role := by
  unfold setCallOutput
  repeat' split
  all_goals rfl

/-- The in-place output write preserves the tool-call id skeleton. -/
theorem partIds_setCallOutput (e : UnifiedEntry) (pi : Nat) (out : String) :
    partIds (setCallOutput e pi out) = partIds e := by
  unfold setCallOutput
  split
  case h_2 => rfl
  case h_1 p hp =>
    split
    case h_2 => rfl
    case h_1 tc hc =>
      apply List.ext_getElem?
      intro n
      simp only [partIds, List.getElem?_map, List.getElem?_set]
      by_cases hn : pi = n
      · subst hn
        have hlt : pi < e.parts.length := (List.getElem?_eq_some.1 hp).1
        rw [if_pos rfl, if_pos hlt, hp]
        simp [partIdOf, hc]
      · rw [if_neg hn]

/-- The in-place output write only changes a tool call's output field: a
part that was a tool call keeps its position, type tag and id. -/
theorem setCallOutput_keeps_toolCall (e : UnifiedEntry) (pi : Nat) (out : String)
    (j : Nat) (q : UnifiedPart) (tc : UnifiedToolCall)
    (hq : e.parts[j]? = some q) (hc : q.content = UContent.toolCallC tc) :
    ∃ p2 tc2, (setCallOutput e pi out).parts[j]? = some p2 ∧
      p2.content = UContent.toolCallC tc2 ∧ tc2.id = tc.id := by
  unfold setCallOutput
  split
  case h_2 => exact ⟨q, tc, hq, hc, rfl⟩
  case h_1 p hp =>
    split
    case h_2 => exact ⟨q, tc, hq, hc, rfl⟩
    case h_1 tc0 hc0 =>
      by_cases hj : pi = j
      · subst hj
        have hlt : pi < e.parts.length := (List.getElem?_eq_some.1 hp).1
        refine ⟨⟨p.ptype, UContent.toolCallC { tc0 with output := out }⟩,
          { tc0 with output := out }, ?_, rfl, ?_⟩
        · simp [List.getElem?_set, hlt]
        · have : p = q := by rw [hp] at hq; cases hq; rfl
          subst this
          rw [hc0] at hc
          cases hc
          rfl
      · exact ⟨q, tc, by rw [List.getElem?_set_ne hj]; exact hq, hc, rfl⟩

/-- Arena length is stable under mutation. -/
theorem arenaMutate_length (arena : List UnifiedEntry) (ei pi : Nat) (out : String) :
    (arenaMutate arena ei pi out).length = arena.length := by
  unfold arenaMutate
  split
  · exact List.length_set _ _ _
  · rfl

/-- Pointwise form of a mutation: the entry at the mutated index is
rewritten by `setCallOutput`, every other entry is untouched. -/
theorem arenaMutate_getElem? (arena : List UnifiedEntry) (ei pi : Nat) (out : String)
    (j : Nat) :
    (arenaMutate arena ei pi out)[j]? =
      if ei = j then (arena[j]?).map (fun e => setCallOutput e pi out)
      else arena[j]? := by
  unfold arenaMutate
  split
  case h_1 e he =>
    by_cases hj : ei = j
    · subst hj
      rw [if_pos rfl, he, List.getElem?_set_eq (List.getElem?_eq_some.1 he).1]
      rfl
    · rw [if_neg hj, List.getElem?_set_ne hj]
  case h_2 he =>
    by_cases hj : ei = j
    · subst hj
      rw [if_pos rfl, he]
      rfl
    · rw [if_neg hj]

/-- A mutation guarded by a well-formed binding whose key differs from `t`
preserves the absence of outputs on id-`t` tool calls. -/
theorem noToolOutput_arenaMutate (arena : List UnifiedEntry) (ei pi : Nat) (out t : String)
    (href : ∃ e q tc, arena[ei]? = some e ∧ e.parts[pi]? = some q ∧
      q.content = UContent.toolCallC tc ∧ tc.id ≠ t)
    (h : noToolOutput arena t) : noToolOutput (arenaMutate arena ei pi out) t := by
  intro e2 he2 p2 hp2 tc2 hc2 hid2
  obtain ⟨e, q, tc, he, hq, hcq, hidq⟩ := href
  unfold arenaMutate at he2
  rw [he] at he2
  rcases List.mem_or_eq_of_mem_set he2 with h1 | h1
  · exact h e2 h1 p2 hp2 tc2 hc2 hid2
  · subst h1
    unfold setCallOutput at hp2
    rw [hq] at hp2
    simp only at hp2
    rw [hcq] at hp2
    simp only at hp2
    rcases List.mem_or_eq_of_mem_set hp2 with h2 | h2
    · exact h e (List.getElem?_mem he) p2 h2 tc2 hc2 hid2
    · subst h2
      simp only at hc2
      cases hc2
      exact absurd hid2 hidq

/-- Pointwise arena preservation under mutation. -/
theorem arenaMutate_pointwise (arena : List UnifiedEntry) (ei pi : Nat) (out : String)
    (i : Nat) (e : UnifiedEntry) (h : arena[i]? = some e) :
    ∃ e2, (arenaMutate arena ei pi out)[i]? = some e2 ∧
      partIds e2 = partIds e ∧ e2.role = e.role := by
  rw [arenaMutate_getElem?]
  by_cases hj : ei = i
  · rw [if_pos hj, h]
    exact ⟨setCallOutput e pi out, rfl, partIds_setCallOutput e pi out,
      setCallOutput_role e pi out⟩
  · rw [if_neg hj]
    exact ⟨e, h, rfl, rfl⟩

/-- Well-formed bindings stay well formed under a mutation. -/
theorem mapRefOk_arenaMutate (arena : List UnifiedEntry) (ei pi : Nat) (out : String)
    (kv : String × (Nat × Nat)) (h : mapRefOk arena kv) :
    mapRefOk (arenaMutate arena ei pi out) kv := by
  obtain ⟨e, he, q, hq, tc, hc, hid⟩ := h
  rw [mapRefOk, arenaMutate_getElem?]
  by_cases hj : ei = kv.2.1
  · rw [if_pos hj, he]
    obtain ⟨p2, tc2, hp2, hc2, hid2⟩ := setCallOutput_keeps_toolCall e pi out kv.2.2 q tc hq hc
    exact ⟨setCallOutput e pi out, rfl, p2, hp2, tc2, hc2, hid2.trans hid⟩
  · rw [if_neg hj]
    exact ⟨e, he, q, hq, tc, hc, hid⟩

/-- The user-branch loop does not change the arena length. -/
theorem userStep_arena_length (acc : UserAcc) (p : UnifiedPart) :
    (userStep acc p).arena.length = acc.arena.length := by
  unfold userStep
  repeat' split
  all_goals simp [arenaMutate_length]

/-- The user-branch loop only removes pending-map bindings. -/
theorem userStep_pmap_sub (acc : UserAcc) (p : UnifiedPart) :
    ∀ kv ∈ (userStep acc p).pmap, kv ∈ acc.pmap := by
  intro kv h
  unfold userStep at h
  repeat' split at h
  all_goals first
    | exact h
    | exact mapDelete_mem _ _ _ h

/-- Pointwise arena preservation through one user-branch step. -/
theorem userStep_arena_pointwise (acc : UserAcc) (p : UnifiedPart) (i : Nat)
    (e : UnifiedEntry) (h : acc.arena[i]? = some e) :
    ∃ e2, (userStep acc p).arena[i]? = some e2 ∧
      partIds e2 = partIds e ∧ e2.role = e.role := by
  unfold userStep
  repeat' split
  all_goals first
    | exact ⟨e, h, rfl, rfl⟩
    | exact arenaMutate_pointwise _ _ _ _ i e h

/-- Case characterization of one user-branch step: no state change, a part
collected into `textParts`, or a matched result that mutates the arena,
deletes the binding and records the emission index. -/
theorem userStep_cases (acc : UserAcc) (p : UnifiedPart) :
    userStep acc p = acc ∨
    userStep acc p = ⟨acc.arena, acc.pmap, acc.emitIdx, acc.textParts ++ [p]⟩ ∨
    ∃ tr ei pi, p.content = UContent.toolResultC tr ∧
      acc.pmap.lookup tr.toolCallID = some (ei, pi) ∧
      userStep acc p = ⟨arenaMutate acc.arena ei pi tr.output,
        mapDelete acc.pmap tr.toolCallID, some ei, acc.textParts⟩ := by
  unfold userStep
  repeat' split
  all_goals first
    | exact Or.inl rfl
    | (right; left; rfl)
    | (right; right;
       exact ⟨_, _, _, by assumption, by assumption, rfl⟩)

/-- Well-formed bindings stay well formed through one user-branch step. -/
theorem userStep_refok (acc : UserAcc) (p : UnifiedPart)
    (h : ∀ kv ∈ acc.pmap, mapRefOk acc.arena kv) :
    ∀ kv ∈ (userStep acc p).pmap, mapRefOk (userStep acc p).arena kv := by
  rcases userStep_cases acc p with hc | hc | ⟨tr, ei, pi, hcon, hlk, hc⟩ <;> rw [hc]
  · exact h
  · exact h
  · intro kv hkv
    exact mapRefOk_arenaMutate _ _ _ _ kv (h kv (mapDelete_mem _ _ _ hkv))

/-- The recorded emission index stays a pending-map reference bound. -/
theorem userStep_emitIdx (n : Nat) (acc : UserAcc) (p : UnifiedPart)
    (hm : ∀ kv ∈ acc.pmap, kv.2.1 < n)
    (he : acc.emitIdx = none ∨ ∃ j, acc.emitIdx = some j ∧ j < n) :
    (userStep acc p).emitIdx = none ∨ ∃ j, (userStep acc p).emitIdx = some j ∧ j < n := by
  rcases userStep_cases acc p with hc | hc | ⟨tr, ei, pi, hcon, hlk, hc⟩ <;> rw [hc]
  · exact he
  · exact he
  · right
    exact ⟨ei, rfl, hm _ (lookup_mem _ _ _ hlk)⟩

/-- A matched-result mutation with well-formed bindings cannot give an
id-`t` tool call a nonempty output when the record carries no result for
`t`. -/
theorem userStep_noToolOutput (t : String) (acc : UserAcc) (p : UnifiedPart)
    (hp : ∀ tr, p.content = UContent.toolResultC tr → tr.toolCallID ≠ t)
    (href : ∀ kv ∈ acc.pmap, mapRefOk acc.arena kv)
    (h : noToolOutput acc.arena t) : noToolOutput (userStep acc p).arena t := by
  rcases userStep_cases acc p with hc | hc | ⟨tr, ei, pi, hcon, hlk, hc⟩ <;> rw [hc]
  · exact h
  · exact h
  · apply noToolOutput_arenaMutate _ _ _ _ _ ?_ h
    obtain ⟨e, he, q, hq, tc, hcq, hid⟩ := href _ (lookup_mem _ _ _ hlk)
    exact ⟨e, q, tc, he, hq, hcq, by rw [hid]; exact hp tr hcon⟩

/-- Arena length through the whole user-branch loop. -/
theorem userFold_arena_length : ∀ (parts : List UnifiedPart) (acc : UserAcc),
    ((parts.foldl userStep acc).arena).length = acc.arena.length := by
  intro parts
  induction parts with
  | nil => intro acc; rfl
  | cons p rest ih =>
    intro acc
    rw [List.foldl_cons, ih]
    exact userStep_arena_length acc p

/-- Pending-map bindings through the whole user-branch loop. -/
theorem userFold_pmap_sub : ∀ (parts : List UnifiedPart) (acc : UserAcc) kv,
    kv ∈ (parts.foldl userStep acc).pmap → kv ∈ acc.pmap := by
  intro parts
  induction parts with
  | nil => intro acc kv h; exact h
  | cons p rest ih =>
    intro acc kv h
    rw [List.foldl_cons] at h
    exact userStep_pmap_sub acc p kv (ih _ kv h)

/-- Pointwise arena preservation through the whole user-branch loop. -/
theorem userFold_arena_pointwise : ∀ (parts : List UnifiedPart) (acc : UserAcc) (i : Nat)
    (e : UnifiedEntry), acc.arena[i]? = some e →
    ∃ e2, ((parts.foldl userStep acc).arena)[i]? = some e2 ∧
      partIds e2 = partIds e ∧ e2.role = e.role := by
  intro parts
  induction parts with
  | nil => intro acc i e h; exact ⟨e, h, rfl, rfl⟩
  | cons p rest ih =>
    intro acc i e h
    rw [List.foldl_cons]
    obtain ⟨e1, he1, hid1, hr1⟩ := userStep_arena_pointwise acc p i e h
    obtain ⟨e2, he2, hid2, hr2⟩ := ih _ i e1 he1
    exact ⟨e2, he2, hid2.trans hid1, hr2.trans hr1⟩

/-- Binding well-formedness through the whole user-branch loop. -/
theorem userFold_refok : ∀ (parts : List UnifiedPart) (acc : UserAcc),
    (∀ kv ∈ acc.pmap, mapRefOk acc.arena kv) →
    ∀ kv ∈ (parts.foldl userStep acc).pmap, mapRefOk ((parts.foldl userStep acc).arena) kv := by
  intro parts
  induction parts with
  | nil => intro acc h; exact h
  | cons p rest ih =>
    intro acc h
    rw [List.foldl_cons]
    exact ih _ (userStep_refok acc p h)

/-- Emission-index bound through the whole user-branch loop. -/
theorem userFold_emitIdx : ∀ (parts : List UnifiedPart) (n : Nat) (acc : UserAcc),
    (∀ kv ∈ acc.pmap, kv.2.1 < n) →
    (acc.emitIdx = none ∨ ∃ j, acc.emitIdx = some j ∧ j < n) →
    ((parts.foldl userStep acc).emitIdx = none ∨
      ∃ j, (parts.foldl userStep acc).emitIdx = some j ∧ j < n) := by
  intro parts
  induction parts with
  | nil => intro n acc _ he; exact he
  | cons p rest ih =>
    intro n acc hm he
    rw [List.foldl_cons]
    exact ih n _ (fun kv hkv => hm kv (userStep_pmap_sub acc p kv hkv))
      (userStep_emitIdx n acc p hm he)

/-- Output preservation through the whole user-branch loop. -/
theorem userFold_noToolOutput : ∀ (parts : List UnifiedPart) (t : String) (acc : UserAcc),
    (∀ p ∈ parts, ∀ tr, p.content = UContent.toolResultC tr → tr.toolCallID ≠ t) →
    (∀ kv ∈ acc.pmap, mapRefOk acc.arena kv) →
    noToolOutput acc.arena t →
    noToolOutput ((parts.foldl userStep acc).arena) t := by
  intro parts
  induction parts with
  | nil => intro t acc _ _ h; exact h
  | cons p rest ih =>
    intro t acc hp href h
    rw [List.foldl_cons]
    exact ih t _ (fun q hq => hp q (List.mem_cons_of_mem p hq))
      (userStep_refok acc p href)
      (userStep_noToolOutput t acc p (hp p (List.mem_cons_self p rest)) href h)

/-- A tool-result part whose id matches nothing leaves the state
unchanged. -/
theorem userStep_id (acc : UserAcc) (p : UnifiedPart)
    (h1 : p.ptype = "tool_result")
    (h2 : ∀ tr, p.content = UContent.toolResultC tr →
      tr.toolCallID = "" ∨ acc.pmap.lookup tr.toolCallID = none) :
    userStep acc p = acc := by
  unfold userStep
  rw [if_pos h1]
  split
  case h_1 tr heq =>
    by_cases hid : tr.toolCallID = ""
    · rw [if_neg (by simp [hid])]
    · rcases h2 tr heq with h3 | h3
      · exact absurd h3 hid
      · rw [if_pos hid, h3]
  case h_2 => rfl

/-- A user record consisting only of unmatched tool results leaves the
whole loop state unchanged. -/
theorem userFold_id : ∀ (parts : List UnifiedPart) (acc : UserAcc),
    (∀ p ∈ parts, p.ptype = "tool_result" ∧
      ∀ tr, p.content = UContent.toolResultC tr →
        tr.toolCallID = "" ∨ acc.pmap.lookup tr.toolCallID = none) →
    parts.foldl userStep acc = acc := by
  intro parts
  induction parts with
  | nil => intro acc _; rfl
  | cons p rest ih =>
    intro acc h
    rw [List.foldl_cons,
      userStep_id acc p (h p (List.mem_cons_self p rest)).1 (h p (List.mem_cons_self p rest)).2]
    exact ih acc (fun q hq => h q (List.mem_cons_of_mem p hq))

/-- Every binding produced by the registration loop is an old one or comes
from an enumerated tool-call part of the entry buffered at `ei`. -/
theorem regFold_mem (ei : Nat) : ∀ (ips : List (Nat × UnifiedPart))
    (m : List (String × (Nat × Nat))) kv,
    kv ∈ ips.foldl (regStep ei) m →
    kv ∈ m ∨ ∃ ip, ip ∈ ips ∧ ∃ tc, ip.2.content = UContent.toolCallC tc ∧
      kv = (tc.id, ei, ip.1) := by
  intro ips
  induction ips with
  | nil => intro m kv h; exact Or.inl h
  | cons a t ih =>
    intro m kv h
    rw [List.foldl_cons] at h
    rcases ih _ kv h with h1 | ⟨ip, hip, tc, hc, hkv⟩
    · unfold regStep at h1
      split at h1
      case h_1 tc hc =>
        split at h1
        · rcases mapInsert_mem _ _ _ _ h1 with h2 | h2
          · exact Or.inr ⟨a, List.mem_cons_self a t, tc, hc, h2⟩
          · exact Or.inl h2
        · exact Or.inl h1
      case h_2 => exact Or.inl h1
    · exact Or.inr ⟨ip, List.mem_cons_of_mem a hip, tc, hc, hkv⟩

/-- Every tool call produced by the content-item switch carries an empty
output. -/
theorem parseItemStep_toolOutput (acc : List UnifiedPart) (item : ClaudeItem)
    (h : ∀ p ∈ acc, ∀ tc, p.content = UContent.toolCallC tc → tc.output = "") :
    ∀ p ∈ parseItemStep acc item, ∀ tc, p.content = UContent.toolCallC tc → tc.output = "" := by
  intro p hp
  unfold parseItemStep at hp
  repeat' split at hp
  all_goals first
    | exact h p hp
    | (rcases List.mem_append.1 hp with h1 | h1
       · exact h p h1
       · simp only [List.mem_singleton] at h1
         subst h1
         intro tc hc
         cases hc <;> rfl)

/-- Every tool call produced by `parseContent` carries an empty output. -/
theorem parseClaudeContent_toolOutput (c : ClaudeContent) :
    ∀ p ∈ parseClaudeContent c, ∀ tc, p.content = UContent.toolCallC tc → tc.output = "" := by
  cases c with
  | strC s =>
    intro p hp tc hc
    simp only [parseClaudeContent] at hp
    split at hp
    · simp only [List.mem_singleton] at hp
      subst hp
      cases hc
    · cases hp
  | otherC => intro p hp; cases hp
  | arrC items =>
    have haux : ∀ (l : List ClaudeItem) (acc : List UnifiedPart),
        (∀ p ∈ acc, ∀ tc, p.content = UContent.toolCallC tc → tc.output = "") →
        ∀ p ∈ l.foldl parseItemStep acc, ∀ tc, p.content = UContent.toolCallC tc →
          tc.output = "" := by
      intro l
      induction l with
      | nil => intro acc h; exact h
      | cons a t ih => intro acc h; exact ih _ (parseItemStep_toolOutput acc a h)
    exact haux items [] (by intro p hp; cases hp)

/-- Every tool call in a record's parsed parts carries an empty output. -/
theorem recParts_toolOutput (r : ClaudeRecord) :
    ∀ p ∈ recParts r, ∀ tc, p.content = UContent.toolCallC tc → tc.output = "" := by
  unfold recParts
  cases r.message with
  | none => intro p hp; cases hp
  | some m => exact parseClaudeContent_toolOutput m.content

/-- `NormalizeLine` on a record that is neither user nor assistant. -/
theorem normalizeClaudeLine_other_eq (s : CState) (r : ClaudeRecord)
    (h1 : r.rtype ≠ "user") (h2 : r.rtype ≠ "assistant") :
    normalizeClaudeLine s r = (s, none) := by
  unfold normalizeClaudeLine
  rw [if_pos ⟨h1, h2⟩]

/-- `NormalizeLine` on an assistant record. -/
theorem normalizeClaudeLine_assistant_eq (s : CState) (r : ClaudeRecord)
    (ha : r.rtype = "assistant") :
    normalizeClaudeLine s r =
      (if (entryOfRecord r).parts.any isRegCall then
        (⟨s.arena ++ [entryOfRecord r],
          (entryOfRecord r).parts.enum.foldl (regStep s.arena.length) s.pendingMap,
          s.pendingList ++ [s.arena.length]⟩, none)
       else (s, some (CEmit.direct (entryOfRecord r)))) := by
  unfold normalizeClaudeLine
  rw [if_neg (fun h => h.2 ha), if_pos ha]

/-- `NormalizeLine` on a user record while buffering is active. -/
theorem normalizeClaudeLine_user_eq (s : CState) (r : ClaudeRecord)
    (hu : r.rtype = "user") (hp : s.pendingList ≠ []) (hm : s.pendingMap ≠ []) :
    normalizeClaudeLine s r =
      (let acc := (entryOfRecord r).parts.foldl userStep ⟨s.arena, s.pendingMap, none, []⟩
       match acc.emitIdx with
       | some ei =>
         (⟨acc.arena, acc.pmap, s.pendingList.filter (fun x => decide (x ≠ ei))⟩,
           some (CEmit.buffered ei))
       | none =>
         if hasRealText acc.textParts then
           (⟨acc.arena, acc.pmap, s.pendingList⟩, some (CEmit.direct (entryOfRecord r)))
         else (⟨acc.arena, acc.pmap, s.pendingList⟩, none)) := by
  unfold normalizeClaudeLine
  rw [if_neg (fun h => h.1 hu), if_neg (by rw [hu]; decide), if_pos ⟨hp, hm⟩]

/-- `NormalizeLine` on a user record with empty buffers. -/
theorem normalizeClaudeLine_user_skip_eq (s : CState) (r : ClaudeRecord)
    (hu : r.rtype = "user") (h : ¬(s.pendingList ≠ [] ∧ s.pendingMap ≠ [])) :
    normalizeClaudeLine s r = (s, some (CEmit.direct (entryOfRecord r))) := by
  unfold normalizeClaudeLine
  rw [if_neg (fun h2 => h2.1 hu), if_neg (by rw [hu]; decide), if_neg h]

/-- Mutations keep the buffered entries assistant entries. -/
theorem arenaMutate_roles (arena : List UnifiedEntry) (ei pi : Nat) (out : String)
    (h : ∀ e ∈ arena, e.role = "assistant") :
    ∀ e ∈ arenaMutate arena ei pi out, e.role = "assistant" := by
  intro e he
  unfold arenaMutate at he
  split at he
  case h_1 e0 he0 =>
    rcases List.mem_or_eq_of_mem_set he with h1 | h1
    · exact h e h1
    · rw [h1, setCallOutput_role]
      exact h e0 (List.getElem?_mem he0)
  case h_2 => exact h e he

/-- One user-branch step keeps the buffered entries assistant entries. -/
theorem userStep_roles (acc : UserAcc) (p : UnifiedPart)
    (h : ∀ e ∈ acc.arena, e.role = "assistant") :
    ∀ e ∈ (userStep acc p).arena, e.role = "assistant" := by
  rcases userStep_cases acc p with hc | hc | ⟨tr, ei, pi, hcon, hlk, hc⟩ <;> rw [hc]
  · exact h
  · exact h
  · exact arenaMutate_roles _ _ _ _ h

/-- The whole user-branch loop keeps the buffered entries assistant
entries. -/
theorem userFold_roles : ∀ (parts : List UnifiedPart) (acc : UserAcc),
    (∀ e ∈ acc.arena, e.role = "assistant") →
    ∀ e ∈ (parts.foldl userStep acc).arena, e.role = "assistant" := by
  intro parts
  induction parts with
  | nil => intro acc h; exact h
  | cons p rest ih => intro acc h; exact ih _ (userStep_roles acc p h)

/-- A binding that is well formed for an arena stays well formed when the
arena grows on the right. -/
theorem mapRefOk_append (arena ext : List UnifiedEntry) (kv : String × (Nat × Nat))
    (h : mapRefOk arena kv) : mapRefOk (arena ++ ext) kv := by
  obtain ⟨e, he, rest⟩ := h
  exact ⟨e, by rw [List.getElem?_append_left (List.getElem?_eq_some.1 he).1]; exact he, rest⟩

/-- The state left by the user branch satisfies well-formedness for any
sublist of the old pending list. -/
theorem CWF_after_userFold (s : CState) (parts : List UnifiedPart) (h : CWF s)
    (pl : List Nat) (hsub : pl.Sublist s.pendingList) :
    CWF ⟨(parts.foldl userStep ⟨s.arena, s.pendingMap, none, []⟩).arena,
         (parts.foldl userStep ⟨s.arena, s.pendingMap, none, []⟩).pmap, pl⟩ := by
  obtain ⟨hb, hpair, href, hrole⟩ := h
  have hlen := userFold_arena_length parts ⟨s.arena, s.pendingMap, none, []⟩
  refine ⟨?_, ?_, ?_, ?_⟩
  · intro i hi
    rw [hlen]
    exact hb i (hsub.subset hi)
  · exact hpair.sublist hsub
  · exact userFold_refok parts ⟨s.arena, s.pendingMap, none, []⟩ href
  · exact userFold_roles parts ⟨s.arena, s.pendingMap, none, []⟩ hrole

/-- Well-formedness is preserved by one `NormalizeLine` step. -/
theorem normalizeClaudeLine_CWF (s : CState) (r : ClaudeRecord) (h : CWF s) :
    CWF (normalizeClaudeLine s r).1 := by
  by_cases ha : r.rtype = "assistant"
  · rw [normalizeClaudeLine_assistant_eq s r ha]
    by_cases hreg : (entryOfRecord r).parts.any isRegCall = true
    · rw [if_pos hreg]
      obtain ⟨hb, hpair, href, hrole⟩ := h
      refine ⟨?_, ?_, ?_, ?_⟩
      · intro i hi
        rw [List.length_append]
        rcases List.mem_append.1 hi with h1 | h1
        · exact Nat.lt_succ_of_lt (hb i h1)
        · simp only [List.mem_singleton] at h1
          subst h1
          simp
      · rw [List.pairwise_append]
        refine ⟨hpair, List.pairwise_singleton _ _, ?_⟩
        intro a ha2 b hb2
        simp only [List.mem_singleton] at hb2
        subst hb2
        exact hb a ha2
      · intro kv hkv
        rcases regFold_mem s.arena.length _ _ kv hkv with h1 | ⟨ip, hip, tc, hc, hkv2⟩
        · exact mapRefOk_append _ _ kv (href kv h1)
        · subst hkv2
          exact ⟨entryOfRecord r, List.getElem?_concat_length _ _,
            ip.2, List.mem_enum_iff_getElem?.1 hip, tc, hc, rfl⟩
      · intro e he
        rcases List.mem_append.1 he with h1 | h1
        · exact hrole e h1
        · simp only [List.mem_singleton] at h1
          subst h1
          exact ha
    · rw [if_neg hreg]
      exact h
  · by_cases hu : r.rtype = "user"
    · by_cases hact : s.pendingList ≠ [] ∧ s.pendingMap ≠ []
      · rw [normalizeClaudeLine_user_eq s r hu hact.1 hact.2]
        simp only
        cases hacc : ((entryOfRecord r).parts.foldl userStep
            ⟨s.arena, s.pendingMap, none, []⟩).emitIdx with
        | some ei =>
          simp only [hacc]
          exact CWF_after_userFold s _ h _ (List.filter_sublist _)
        | none =>
          simp only [hacc]
          split
          · exact CWF_after_userFold s _ h _ (List.Sublist.refl _)
          · exact CWF_after_userFold s _ h _ (List.Sublist.refl _)
      · rw [normalizeClaudeLine_user_skip_eq s r hu hact]
        exact h
    · rw [normalizeClaudeLine_other_eq s r hu ha]
      exact h

/-- Coverage is monotone in the emission list. -/
theorem covers_mono (s : CState) (evs more : List CEmit) (h : covers s evs) :
    covers s (evs ++ more) := by
  intro i hi
  rcases h i hi with h1 | h1
  · exact Or.inl h1
  · exact Or.inr (List.mem_append_left more h1)

/-- Coverage is preserved by one `NormalizeLine` step, the step's emission
appended. -/
theorem normalizeClaudeLine_covers (s : CState) (r : ClaudeRecord) (evs : List CEmit)
    (h : covers s evs) :
    covers (normalizeClaudeLine s r).1 (evs ++ (normalizeClaudeLine s r).2.toList) := by
  by_cases ha : r.rtype = "assistant"
  · rw [normalizeClaudeLine_assistant_eq s r ha]
    by_cases hreg : (entryOfRecord r).parts.any isRegCall = true
    · rw [if_pos hreg]
      intro i hi
      simp only [List.length_append, List.length_singleton] at hi
      by_cases hlt : i < s.arena.length
      · rcases h i hlt with h1 | h1
        · exact Or.inl (List.mem_append_left _ h1)
        · exact Or.inr (List.mem_append_left _ h1)
      · have : i = s.arena.length := by omega
        subst this
        exact Or.inl (List.mem_append_right _ (List.mem_singleton.2 rfl))
    · rw [if_neg hreg]
      exact covers_mono s evs _ h
  · by_cases hu : r.rtype = "user"
    · by_cases hact : s.pendingList ≠ [] ∧ s.pendingMap ≠ []
      · rw [normalizeClaudeLine_user_eq s r hu hact.1 hact.2]
        simp only
        cases hacc : ((entryOfRecord r).parts.foldl userStep
            ⟨s.arena, s.pendingMap, none, []⟩).emitIdx with
        | some ei =>
          simp only [hacc]
          intro i hi
          have hlen := userFold_arena_length (entryOfRecord r).parts
            ⟨s.arena, s.pendingMap, none, []⟩
          rw [hlen] at hi
          rcases h i hi with h1 | h1
          · by_cases hei : i = ei
            · subst hei
              exact Or.inr (List.mem_append_right _ (List.mem_singleton.2 rfl))
            · exact Or.inl (List.mem_filter.2 ⟨h1, decide_eq_true hei⟩)
          · exact Or.inr (List.mem_append_left _ h1)
        | none =>
          simp only [hacc]
          have hlen := userFold_arena_length (entryOfRecord r).parts
            ⟨s.arena, s.pendingMap, none, []⟩
          split
          · intro i hi
            rw [hlen] at hi
            rcases h i hi with h1 | h1
            · exact Or.inl h1
            · exact Or.inr (List.mem_append_left _ h1)
          · intro i hi
            rw [hlen] at hi
            rcases h i hi with h1 | h1
            · exact Or.inl h1
            · exact Or.inr (List.mem_append_left _ h1)
      · rw [normalizeClaudeLine_user_skip_eq s r hu hact]
        exact covers_mono s evs _ h
    · rw [normalizeClaudeLine_other_eq s r hu ha]
      exact covers_mono s evs _ h

/-- Pointwise arena preservation by one `NormalizeLine` step. -/
theorem normalizeClaudeLine_arena_pointwise (s : CState) (r : ClaudeRecord) (i : Nat)
    (e : UnifiedEntry) (h : s.arena[i]? = some e) :
    ∃ e2, (normalizeClaudeLine s r).1.arena[i]? = some e2 ∧
      partIds e2 = partIds e ∧ e2.role = e.role := by
  by_cases ha : r.rtype = "assistant"
  · rw [normalizeClaudeLine_assistant_eq s r ha]
    by_cases hreg : (entryOfRecord r).parts.any isRegCall = true
    · rw [if_pos hreg]
      exact ⟨e, by rw [List.getElem?_append_left (List.getElem?_eq_some.1 h).1]; exact h,
        rfl, rfl⟩
    · rw [if_neg hreg]
      exact ⟨e, h, rfl, rfl⟩
  · by_cases hu : r.rtype = "user"
    · by_cases hact : s.pendingList ≠ [] ∧ s.pendingMap ≠ []
      · rw [normalizeClaudeLine_user_eq s r hu hact.1 hact.2]
        simp only
        cases hacc : ((entryOfRecord r).parts.foldl userStep
            ⟨s.arena, s.pendingMap, none, []⟩).emitIdx with
        | some ei =>
          simp only [hacc]
          exact userFold_arena_pointwise _ _ i e h
        | none =>
          simp only [hacc]
          split
          · exact userFold_arena_pointwise _ _ i e h
          · exact userFold_arena_pointwise _ _ i e h
      · rw [normalizeClaudeLine_user_skip_eq s r hu hact]
        exact ⟨e, h, rfl, rfl⟩
    · rw [normalizeClaudeLine_other_eq s r hu ha]
      exact ⟨e, h, rfl, rfl⟩

/-- Absence of id-`t` outputs is preserved by one `NormalizeLine` step when
the record carries no result for `t`. -/
theorem normalizeClaudeLine_noToolOutput (s : CState) (r : ClaudeRecord) (t : String)
    (hr : recordNoResultFor r t)
    (href : ∀ kv ∈ s.pendingMap, mapRefOk s.arena kv)
    (h : noToolOutput s.arena t) :
    noToolOutput (normalizeClaudeLine s r).1.arena t := by
  by_cases ha : r.rtype = "assistant"
  · rw [normalizeClaudeLine_assistant_eq s r ha]
    by_cases hreg : (entryOfRecord r).parts.any isRegCall = true
    · rw [if_pos hreg]
      intro e he p hp tc hc hid
      rcases List.mem_append.1 he with h1 | h1
      · exact h e h1 p hp tc hc hid
      · simp only [List.mem_singleton] at h1
        subst h1
        exact recParts_toolOutput r p hp tc hc
    · rw [if_neg hreg]
      exact h
  · by_cases hu : r.rtype = "user"
    · by_cases hact : s.pendingList ≠ [] ∧ s.pendingMap ≠ []
      · rw [normalizeClaudeLine_user_eq s r hu hact.1 hact.2]
        simp only
        have main := userFold_noToolOutput (entryOfRecord r).parts t
          ⟨s.arena, s.pendingMap, none, []⟩
          (fun p hp tr htr => hr p hp tr htr) href h
        cases hacc : ((entryOfRecord r).parts.foldl userStep
            ⟨s.arena, s.pendingMap, none, []⟩).emitIdx with
        | some ei => simp only [hacc]; exact main
        | none =>
          simp only [hacc]
          split
          · exact main
          · exact main
      · rw [normalizeClaudeLine_user_skip_eq s r hu hact]
        exact h
    · rw [normalizeClaudeLine_other_eq s r hu ha]
      exact h

/-- A direct emission is the entry built from the processed record. -/
theorem normalizeClaudeLine_direct (s : CState) (r : ClaudeRecord) (e : UnifiedEntry)
    (h : (normalizeClaudeLine s r).2 = some (CEmit.direct e)) : e = entryOfRecord r := by
  by_cases ha : r.rtype = "assistant"
  · rw [normalizeClaudeLine_assistant_eq s r ha] at h
    split at h
    · cases h
    · cases h
      rfl
  · by_cases hu : r.rtype = "user"
    · by_cases hact : s.pendingList ≠ [] ∧ s.pendingMap ≠ []
      · have heq := normalizeClaudeLine_user_eq s r hu hact.1 hact.2
        simp only at heq
        cases hacc : ((entryOfRecord r).parts.foldl userStep
            ⟨s.arena, s.pendingMap, none, []⟩).emitIdx with
        | some ei =>
          rw [hacc] at heq
          rw [heq] at h
          simp only at h
          cases h
        | none =>
          rw [hacc] at heq
          simp only at heq
          rw [heq] at h
          split at h
          · simp only at h
            injection h with h2
            injection h2 with h3
            exact h3.symm
          · simp only at h
            cases h
      · rw [normalizeClaudeLine_user_skip_eq s r hu hact] at h
        simp only at h
        injection h with h2
        injection h2 with h3
        exact h3.symm
    · rw [normalizeClaudeLine_other_eq s r hu ha] at h
      cases h

/-- A buffered emission names an already-buffered entry, removes it from
the pending list and leaves the arena length unchanged. -/
theorem normalizeClaudeLine_buffered (s : CState) (r : ClaudeRecord) (ei : Nat)
    (hwf : CWF s) (h : (normalizeClaudeLine s r).2 = some (CEmit.buffered ei)) :
    ei < s.arena.length ∧
    (normalizeClaudeLine s r).1.pendingList =
      s.pendingList.filter (fun x => decide (x ≠ ei)) ∧
    ei ∉ (normalizeClaudeLine s r).1.pendingList ∧
    (normalizeClaudeLine s r).1.arena.length = s.arena.length := by
  obtain ⟨hb, hpair, href, hrole⟩ := hwf
  by_cases ha : r.rtype = "assistant"
  · rw [normalizeClaudeLine_assistant_eq s r ha] at h ⊢
    split at h
    · cases h
    · cases h
  · by_cases hu : r.rtype = "user"
    · by_cases hact : s.pendingList ≠ [] ∧ s.pendingMap ≠ []
      · have heq := normalizeClaudeLine_user_eq s r hu hact.1 hact.2
        simp only at heq
        cases hacc : ((entryOfRecord r).parts.foldl userStep
            ⟨s.arena, s.pendingMap, none, []⟩).emitIdx with
        | some ei2 =>
          rw [hacc] at heq
          rw [heq] at h
          simp only at h
          injection h with h2
          injection h2 with h3
          subst h3
          have hidx := userFold_emitIdx (entryOfRecord r).parts s.arena.length
            ⟨s.arena, s.pendingMap, none, []⟩
            (fun kv hkv => by
              obtain ⟨e, he, _⟩ := href kv hkv
              exact (List.getElem?_eq_some.1 he).1)
            (Or.inl rfl)
          rcases hidx with h1 | ⟨j, hj, hjlt⟩
          · rw [hacc] at h1; cases h1
          · rw [hacc] at hj
            injection hj with hj2
            subst hj2
            rw [heq]
            refine ⟨hjlt, rfl, ?_, userFold_arena_length _ _⟩
            intro hmem
            have := (List.mem_filter.1 hmem).2
            simp at this
        | none =>
          rw [hacc] at heq
          simp only at heq
          rw [heq] at h
          split at h
          · simp only at h
            cases h
          · simp only at h
            cases h
      · rw [normalizeClaudeLine_user_skip_eq s r hu hact] at h
        simp only at h
        cases h
    · rw [normalizeClaudeLine_other_eq s r hu ha] at h
      cases h

/-- The initial state is well formed. -/
theorem init_CWF : CWF initCState := by
  refine ⟨?_, ?_, ?_, ?_⟩ <;> simp [initCState]

/-- `Flush` never changes the arena. -/
theorem flushClaude_arena (s : CState) : (flushClaude s).1.arena = s.arena := by
  unfold flushClaude
  split <;> rfl

/-- Unfolding one record of the run. -/
theorem runClaudeAux_cons (s : CState) (r : ClaudeRecord) (rest : List ClaudeRecord) :
    runClaudeAux s (r :: rest) =
      ((runClaudeAux (normalizeClaudeLine s r).1 rest).1,
       (normalizeClaudeLine s r).2.toList ++ (runClaudeAux (normalizeClaudeLine s r).1 rest).2) := by
  cases h : (normalizeClaudeLine s r).2 with
  | none => simp [runClaudeAux, h, Option.toList]
  | some e => simp [runClaudeAux, h, Option.toList]

/-- Splitting the run at a stream position. -/
theorem runClaudeAux_append : ∀ (xs ys : List ClaudeRecord) (s : CState),
    runClaudeAux s (xs ++ ys) =
      ((runClaudeAux (runClaudeAux s xs).1 ys).1,
       (runClaudeAux s xs).2 ++ (runClaudeAux (runClaudeAux s xs).1 ys).2) := by
  intro xs
  induction xs with
  | nil => intro ys s; simp [runClaudeAux]
  | cons r rest ih =>
    intro ys s
    rw [List.cons_append, runClaudeAux_cons, runClaudeAux_cons, ih]
    simp [List.append_assoc]

/-- Well-formedness along the whole run. -/
theorem runClaudeAux_CWF : ∀ (rs : List ClaudeRecord) (s : CState),
    CWF s → CWF (runClaudeAux s rs).1 := by
  intro rs
  induction rs with
  | nil => intro s h; exact h
  | cons r rest ih =>
    intro s h
    rw [runClaudeAux_cons]
    exact ih _ (normalizeClaudeLine_CWF s r h)

/-- Coverage along the whole run. -/
theorem runClaudeAux_covers : ∀ (rs : List ClaudeRecord) (s : CState) (evs : List CEmit),
    covers s evs → covers (runClaudeAux s rs).1 (evs ++ (runClaudeAux s rs).2) := by
  intro rs
  induction rs with
  | nil =>
    intro s evs h
    simpa [runClaudeAux] using h
  | cons r rest ih =>
    intro s evs h
    rw [runClaudeAux_cons]
    have step := normalizeClaudeLine_covers s r evs h
    have := ih (normalizeClaudeLine s r).1 (evs ++ (normalizeClaudeLine s r).2.toList) step
    simpa [List.append_assoc] using this

/-- Pointwise arena preservation along the whole run. -/
theorem runClaudeAux_pointwise : ∀ (rs : List ClaudeRecord) (s : CState) (i : Nat)
    (e : UnifiedEntry), s.arena[i]? = some e →
    ∃ e2, (runClaudeAux s rs).1.arena[i]? = some e2 ∧
      partIds e2 = partIds e ∧ e2.role = e.role := by
  intro rs
  induction rs with
  | nil => intro s i e h; exact ⟨e, h, rfl, rfl⟩
  | cons r rest ih =>
    intro s i e h
    rw [runClaudeAux_cons]
    obtain ⟨e1, he1, hid1, hr1⟩ := normalizeClaudeLine_arena_pointwise s r i e h
    obtain ⟨e2, he2, hid2, hr2⟩ := ih _ i e1 he1
    exact ⟨e2, he2, hid2.trans hid1, hr2.trans hr1⟩

/-- Absence of id-`t` outputs along the whole run. -/
theorem runClaudeAux_noToolOutput : ∀ (rs : List ClaudeRecord) (s : CState) (t : String),
    (∀ r ∈ rs, recordNoResultFor r t) → CWF s → noToolOutput s.arena t →
    noToolOutput (runClaudeAux s rs).1.arena t := by
  intro rs
  induction rs with
  | nil => intro s t _ _ h; exact h
  | cons r rest ih =>
    intro s t hall hwf h
    rw [runClaudeAux_cons]
    exact ih _ t (fun q hq => hall q (List.mem_cons_of_mem r hq))
      (normalizeClaudeLine_CWF s r hwf)
      (normalizeClaudeLine_noToolOutput s r t (hall r (List.mem_cons_self r rest))
        hwf.2.2.1 h)

/-- Every direct emission of the run is the entry of some stream record. -/
theorem runClaudeAux_direct : ∀ (rs : List ClaudeRecord) (s : CState) (e : UnifiedEntry),
    CEmit.direct e ∈ (runClaudeAux s rs).2 → ∃ r ∈ rs, e = entryOfRecord r := by
  intro rs
  induction rs with
  | nil => intro s e h; simp [runClaudeAux] at h
  | cons r rest ih =>
    intro s e h
    rw [runClaudeAux_cons] at h
    rcases List.mem_append.1 h with h1 | h1
    · cases hm : (normalizeClaudeLine s r).2 with
      | none => rw [hm] at h1; cases h1
      | some em =>
        rw [hm] at h1
        simp only [Option.toList, List.mem_singleton] at h1
        subst h1
        exact ⟨r, List.mem_cons_self r rest, normalizeClaudeLine_direct s r e hm⟩
    · obtain ⟨r2, hr2, he2⟩ := ih _ e h1
      exact ⟨r2, List.mem_cons_of_mem r hr2, he2⟩

/-- Every arena index of the final state appears among the emissions once
`Flush` has run. -/
theorem runClaude_buffered_mem (rs : List ClaudeRecord) (i : Nat)
    (hi : i < (runClaudeAux initCState rs).1.arena.length) :
    CEmit.buffered i ∈
      (runClaudeAux initCState rs).2 ++ (flushClaude (runClaudeAux initCState rs).1).2 := by
  have hcov := runClaudeAux_covers rs initCState []
    (by intro j hj; simp [initCState] at hj)
  rw [List.nil_append] at hcov
  rcases hcov i hi with h1 | h1
  · apply List.mem_append_right
    unfold flushClaude
    rw [if_pos (List.ne_nil_of_mem h1)]
    exact List.mem_map_of_mem CEmit.buffered h1
  · exact List.mem_append_left _ h1

/-- A direct emission remains one after appending the `Flush` output. -/
theorem runClaude_direct_mem (rs : List ClaudeRecord) (e : UnifiedEntry)
    (h : CEmit.direct e ∈
      (runClaudeAux initCState rs).2 ++ (flushClaude (runClaudeAux initCState rs).1).2) :
    CEmit.direct e ∈ (runClaudeAux initCState rs).2 := by
  rcases List.mem_append.1 h with h1 | h1
  · exact h1
  · exfalso
    unfold flushClaude at h1
    split at h1
    · rcases List.mem_map.1 h1 with ⟨x, _, hx⟩
      cases hx
    · cases h1

/-- A `tool_use` content item. -/
def toolUseItem (i : String) : ClaudeItem := ⟨"tool_use", "", "", i, "Bash", [], "", ""⟩

/-- A `tool_result` content item. -/
def toolResultItem (i o : String) : ClaudeItem := ⟨"tool_result", "", "", "", "", [], i, o⟩

/-- Assistant record with two tool calls t1 and t2. -/
def c1RecA : ClaudeRecord :=
  ⟨"assistant", 1, some ⟨"mA", ClaudeContent.arrC [toolUseItem "t1", toolUseItem "t2"]⟩⟩

/-- User record resolving t1. -/
def c1RecU1 : ClaudeRecord :=
  ⟨"user", 2, some ⟨"mU1", ClaudeContent.arrC [toolResultItem "t1" "ok1"]⟩⟩

/-- User record resolving t2, arriving after the entry was already
emitted. -/
def c1RecU2 : ClaudeRecord :=
  ⟨"user", 3, some ⟨"mU2", ClaudeContent.arrC [toolResultItem "t2" "ok2"]⟩⟩

/-- Counterexample to C1 as stated: a matching tool result for t2 appears
in a later user record, yet every occurrence of tool call t2 in the
output has an empty output — the entry was emitted on t1's result and the
pending buffer was empty when t2's result arrived, so it was never
merged. -/
theorem claude_result_after_emission_counterexample :
    streamHasResultFor [c1RecA, c1RecU1, c1RecU2] "t2" = true ∧
    toolCallOutputsFor (runClaude [c1RecA, c1RecU1, c1RecU2]) "t2" = [""] := by
  decide

/-- Assistant record with tool calls t1 and t2 (message mA). -/
def c2RecA : ClaudeRecord :=
  ⟨"assistant", 1, some ⟨"mA", ClaudeContent.arrC [toolUseItem "t1", toolUseItem "t2"]⟩⟩

/-- Assistant record with tool call t3 (message mB). -/
def c2RecB : ClaudeRecord :=
  ⟨"assistant", 2, some ⟨"mB", ClaudeContent.arrC [toolUseItem "t3"]⟩⟩

/-- User record resolving t1. -/
def c2RecU1 : ClaudeRecord :=
  ⟨"user", 3, some ⟨"mU1", ClaudeContent.arrC [toolResultItem "t1" "o1"]⟩⟩

/-- User record resolving t2. -/
def c2RecU2 : ClaudeRecord :=
  ⟨"user", 4, some ⟨"mU2", ClaudeContent.arrC [toolResultItem "t2" "o2"]⟩⟩

/-- Counterexample to C2 as stated: entry mA is emitted twice — once when
t1's result arrives and again when t2's result arrives while mB is still
buffered — so an entry can be emitted more than once over a stream. -/
theorem claude_double_emission_counterexample :
    (runClaude [c2RecA, c2RecB, c2RecU1, c2RecU2]).map (fun e => e.messageID) =
      ["mA", "mA", "mB"] := by
  decide

/-- First assistant record (message m1, tool call t1). -/
def c3RecA1 : ClaudeRecord :=
  ⟨"assistant", 1, some ⟨"m1", ClaudeContent.arrC [toolUseItem "t1"]⟩⟩

/-- Second assistant record (message m2, tool call t2). -/
def c3RecA2 : ClaudeRecord :=
  ⟨"assistant", 2, some ⟨"m2", ClaudeContent.arrC [toolUseItem "t2"]⟩⟩

/-- User record resolving t2 (the later assistant entry) first. -/
def c3RecU1 : ClaudeRecord :=
  ⟨"user", 3, some ⟨"mU1", ClaudeContent.arrC [toolResultItem "t2" "o2"]⟩⟩

/-- User record resolving t1 second. -/
def c3RecU2 : ClaudeRecord :=
  ⟨"user", 4, some ⟨"mU2", ClaudeContent.arrC [toolResultItem "t1" "o1"]⟩⟩

/-- Counterexample to C3 as stated: the assistant records are defined in
order m1, m2, but the emission order is m2, m1 — buffered entries are
emitted in resolution order, not in defining-record order. -/
theorem claude_emission_order_counterexample :
    (runClaude [c3RecA1, c3RecA2, c3RecU1, c3RecU2]).map (fun e => e.messageID) =
      ["m2", "m1"] := by
  decide

/-- A lone user record whose only content is an unmatched tool result. -/
def c4Rec : ClaudeRecord :=
  ⟨"user", 1, some ⟨"u9", ClaudeContent.arrC [toolResultItem "t9" "x"]⟩⟩

/-- Counterexample to C4 as stated: with empty buffers, a user record whose
only content is an unmatched tool result IS emitted (as a user entry
carrying the result part) — the swallowing only happens while at least one
entry and one call are pending. -/
theorem claude_unmatched_result_emitted_counterexample :
    runClaude [c4Rec] =
      [⟨"user", 1, "u9",
        [⟨"tool_result", UContent.toolResultC ⟨"t9", "x", false⟩⟩], none, "claude"⟩] := by
  decide

/-- Whether a part is a tool result matching no pending call of map `m`. -/
def unmatchedResultPart (m : List (String × (Nat × Nat))) (p : UnifiedPart) : Bool :=
  decide (p.ptype = "tool_result") &&
    (match p.content with
     | UContent.toolResultC tr =>
       decide (tr.toolCallID = "") || decide (m.lookup tr.toolCallID = none)
     | _ => true)

/-- C4 amended: a user record whose only content is tool results matching
no pending call is swallowed — but only while the normalizer holds at
least one buffered entry and one pending call; the state is left
untouched.  (With empty buffers such a record is emitted as a user entry,
see the counterexample.) -/
theorem claude_unmatched_results_amended :
    ∀ (s : CState) (r : ClaudeRecord),
      r.rtype = "user" → s.pendingList ≠ [] → s.pendingMap ≠ [] →
      (recParts r).all (unmatchedResultPart s.pendingMap) = true →
      normalizeClaudeLine s r = (s, none) := by
  intro s r hu hp hm hall
  rw [normalizeClaudeLine_user_eq s r hu hp hm]
  simp only
  have hid : (entryOfRecord r).parts.foldl userStep ⟨s.arena, s.pendingMap, none, []⟩ =
      ⟨s.arena, s.pendingMap, none, []⟩ := by
    apply userFold_id
    intro p hp2
    have hb := List.all_eq_true.1 hall p hp2
    unfold unmatchedResultPart at hb
    simp only [Bool.and_eq_true, decide_eq_true_eq] at hb
    obtain ⟨h1, h2⟩ := hb
    refine ⟨h1, ?_⟩
    intro tr htr
    rw [htr] at h2
    simp only [Bool.or_eq_true, decide_eq_true_eq] at h2
    exact h2
  rw [hid]
  rfl

/-- A buffered entry for the C4 witness state. -/
def c4WitnessEntry : UnifiedEntry :=
  ⟨"assistant", 0, "mA",
    [⟨"tool_call", UContent.toolCallC ⟨"t1", "Bash", [], "", "", "", ""⟩⟩], none, "claude"⟩

/-- A state with one buffered entry and one pending call. -/
def c4WitnessState : CState := ⟨[c4WitnessEntry], [("t1", (0, 0))], [0]⟩

/-- A user record carrying only a result that matches nothing pending. -/
def c4WitnessRec : ClaudeRecord :=
  ⟨"user", 5, some ⟨"u1", ClaudeContent.arrC [toolResultItem "zz" "out"]⟩⟩

/-- Witness for the amended C4. -/
theorem claude_unmatched_results_amended_witness :
    normalizeClaudeLine c4WitnessState c4WitnessRec = (c4WitnessState, none) :=
  claude_unmatched_results_amended c4WitnessState c4WitnessRec rfl
    (by decide) (by decide) (by decide)

/-- The caller-visible output equals the per-record emissions followed by
the `Flush` output, resolved against the final arena. -/
theorem runClaude_eq (rs : List ClaudeRecord) :
    runClaude rs =
      ((runClaudeAux initCState rs).2 ++ (flushClaude (runClaudeAux initCState rs).1).2).map
        (resolveEmit (runClaudeAux initCState rs).1.arena) := by
  simp only [runClaude]
  rw [flushClaude_arena]

/-- C3 amended: emissions happen at the position of the triggering record
(for a buffered assistant entry that is the resolving user record's
position, not its own, see the counterexample); the entries still pending
at end of stream are appended by `Flush` after all per-record emissions,
in buffer order, which is strictly increasing arena (defining-record)
order. -/
theorem claude_flush_order_amended :
    ∀ rs : List ClaudeRecord,
      List.Pairwise (fun i j => i < j) ((runClaudeAux initCState rs).1.pendingList) ∧
      runClaude rs =
        ((runClaudeAux initCState rs).2 ++
          (flushClaude (runClaudeAux initCState rs).1).2).map
          (resolveEmit (runClaudeAux initCState rs).1.arena) := by
  intro rs
  exact ⟨(runClaudeAux_CWF rs initCState init_CWF).2.1, runClaude_eq rs⟩

/-- C2 amended: a user record emits at most one entry; when it emits a
buffered one, that entry was previously buffered (its index is below the
arena length), it is removed from the pending list, the arena length is
unchanged — and everything the normalizer ever buffers is an assistant
entry, so the emitted entry is the buffered assistant entry, never the
user record.  (One user record completing several buffered entries emits
only the last-matched one, and a buffered entry can be emitted more than
once, see the counterexample.) -/
theorem claude_user_emission_amended :
    (∀ (s : CState) (r : ClaudeRecord) (ei : Nat), CWF s →
      (normalizeClaudeLine s r).2 = some (CEmit.buffered ei) →
      ei < s.arena.length ∧
      (normalizeClaudeLine s r).1.pendingList =
        s.pendingList.filter (fun x => decide (x ≠ ei)) ∧
      ei ∉ (normalizeClaudeLine s r).1.pendingList ∧
      (normalizeClaudeLine s r).1.arena.length = s.arena.length) ∧
    (∀ (rs : List ClaudeRecord) (e : UnifiedEntry),
      e ∈ (runClaudeAux initCState rs).1.arena → e.role = "assistant") :=
  ⟨fun s r ei hwf h => normalizeClaudeLine_buffered s r ei hwf h,
   fun rs e he => (runClaudeAux_CWF rs initCState init_CWF).2.2.2 e he⟩

/-- A buffered entry for the C2 witness state. -/
def c2WitnessEntry : UnifiedEntry :=
  ⟨"assistant", 0, "mW",
    [⟨"tool_call", UContent.toolCallC ⟨"w1", "Bash", [], "", "", "", ""⟩⟩], none, "claude"⟩

/-- A well-formed state with one buffered entry and one pending call. -/
def c2WitnessState : CState := ⟨[c2WitnessEntry], [("w1", (0, 0))], [0]⟩

/-- The C2 witness state is well formed. -/
theorem c2WitnessState_wf : CWF c2WitnessState := by
  refine ⟨?_, ?_, ?_, ?_⟩
  · intro i hi
    simp only [c2WitnessState, List.mem_singleton] at hi
    subst hi
    decide
  · simp [c2WitnessState]
  · intro kv hkv
    simp only [c2WitnessState, List.mem_singleton] at hkv
    subst hkv
    exact ⟨c2WitnessEntry, rfl,
      ⟨"tool_call", UContent.toolCallC ⟨"w1", "Bash", [], "", "", "", ""⟩⟩, rfl,
      ⟨"w1", "Bash", [], "", "", "", ""⟩, rfl, rfl⟩
  · intro e he
    simp only [c2WitnessState, List.mem_singleton] at he
    subst he
    rfl

/-- A user record resolving the C2 witness state's pending call. -/
def c2WitnessRec : ClaudeRecord :=
  ⟨"user", 9, some ⟨"u2", ClaudeContent.arrC [toolResultItem "w1" "ok"]⟩⟩

/-- An assistant record whose entry gets buffered. -/
def c2ArenaRec : ClaudeRecord :=
  ⟨"assistant", 1, some ⟨"mR", ClaudeContent.arrC [toolUseItem "q1"]⟩⟩

/-- Witness for the amended C2. -/
theorem claude_user_emission_amended_witness :
    (0 < c2WitnessState.arena.length ∧
     (normalizeClaudeLine c2WitnessState c2WitnessRec).1.pendingList =
       c2WitnessState.pendingList.filter (fun x => decide (x ≠ 0)) ∧
     0 ∉ (normalizeClaudeLine c2WitnessState c2WitnessRec).1.pendingList ∧
     (normalizeClaudeLine c2WitnessState c2WitnessRec).1.arena.length =
       c2WitnessState.arena.length) ∧
    (entryOfRecord c2ArenaRec).role = "assistant" :=
  ⟨claude_user_emission_amended.1 c2WitnessState c2WitnessRec 0 c2WitnessState_wf (by decide),
   claude_user_emission_amended.2 [c2ArenaRec] (entryOfRecord c2ArenaRec) (by decide)⟩

/-- C1 amended: every tool call of an assistant record survives into the
caller-visible output — some returned entry carries a part with that call
id — and when no tool result for it ever arrives, every returned copy of
the call has empty output (it reaches the caller via `Flush`).  The
output written when a result DOES arrive may be stale: a result arriving
after its entry was already emitted is merged into the buffer copy the
caller already received, see the counterexample. -/
theorem claude_no_tool_call_lost_amended :
    ∀ (rs : List ClaudeRecord) (r : ClaudeRecord) (p : UnifiedPart) (tc : UnifiedToolCall),
      r ∈ rs → r.rtype = "assistant" → p ∈ recParts r →
      p.content = UContent.toolCallC tc →
      (∃ e ∈ runClaude rs, ∃ q ∈ e.parts, partIdOf q = some tc.id) ∧
      (streamHasResultFor rs tc.id = false →
        ∀ e ∈ runClaude rs, ∀ q ∈ e.parts, ∀ tc2, q.content = UContent.toolCallC tc2 →
          tc2.id = tc.id → tc2.output = "") := by
  intro rs r p tc hr ha hp hpc
  have hpidp : partIdOf p = some tc.id := by
    unfold partIdOf
    rw [hpc]
  constructor
  · obtain ⟨l₁, l₂, hsplit⟩ := List.append_of_mem hr
    subst hsplit
    have hstep := normalizeClaudeLine_assistant_eq (runClaudeAux initCState l₁).1 r ha
    by_cases hreg : (entryOfRecord r).parts.any isRegCall = true
    · rw [if_pos hreg] at hstep
      have hn : (normalizeClaudeLine (runClaudeAux initCState l₁).1 r).1.arena[
          (runClaudeAux initCState l₁).1.arena.length]? = some (entryOfRecord r) := by
        rw [hstep]
        exact List.getElem?_concat_length _ _
      obtain ⟨e2, he2, hid2, _⟩ := runClaudeAux_pointwise l₂
        (normalizeClaudeLine (runClaudeAux initCState l₁).1 r).1
        (runClaudeAux initCState l₁).1.arena.length (entryOfRecord r) hn
      have hfin : (runClaudeAux initCState (l₁ ++ r :: l₂)).1 =
          (runClaudeAux (normalizeClaudeLine (runClaudeAux initCState l₁).1 r).1 l₂).1 := by
        rw [runClaudeAux_append, runClaudeAux_cons]
      have hfinA : (runClaudeAux initCState (l₁ ++ r :: l₂)).1.arena[
          (runClaudeAux initCState l₁).1.arena.length]? = some e2 := by
        rw [hfin]
        exact he2
      have hlt : (runClaudeAux initCState l₁).1.arena.length <
          (runClaudeAux initCState (l₁ ++ r :: l₂)).1.arena.length := by
        by_contra hcon
        push_neg at hcon
        rw [List.getElem?_eq_none hcon] at hfinA
        cases hfinA
      have hmemEmit := runClaude_buffered_mem (l₁ ++ r :: l₂)
        (runClaudeAux initCState l₁).1.arena.length hlt
      have hre : resolveEmit (runClaudeAux initCState (l₁ ++ r :: l₂)).1.arena
          (CEmit.buffered (runClaudeAux initCState l₁).1.arena.length) = e2 := by
        simp only [resolveEmit]
        rw [hfinA]
        rfl
      have hmem : e2 ∈ runClaude (l₁ ++ r :: l₂) := by
        rw [runClaude_eq]
        have hmm := List.mem_map_of_mem
          (resolveEmit (runClaudeAux initCState (l₁ ++ r :: l₂)).1.arena) hmemEmit
        rw [hre] at hmm
        exact hmm
      have hin : some tc.id ∈ partIds e2 := by
        rw [hid2]
        unfold partIds
        rw [← hpidp]
        exact List.mem_map_of_mem partIdOf hp
      unfold partIds at hin
      obtain ⟨q, hq, hqid⟩ := List.mem_map.1 hin
      exact ⟨e2, hmem, q, hq, hqid⟩
    · rw [if_neg hreg] at hstep
      have hmem2 : CEmit.direct (entryOfRecord r) ∈
          (runClaudeAux initCState (l₁ ++ r :: l₂)).2 := by
        rw [runClaudeAux_append]
        apply List.mem_append_right
        rw [runClaudeAux_cons]
        apply List.mem_append_left
        rw [hstep]
        exact List.mem_singleton.2 rfl
      have hd : entryOfRecord r ∈ runClaude (l₁ ++ r :: l₂) := by
        rw [runClaude_eq]
        exact List.mem_map_of_mem _ (List.mem_append_left _ hmem2)
      exact ⟨entryOfRecord r, hd, p, hp, hpidp⟩
  · intro hnone e he q hq tc2 hqc hid
    have hall : ∀ r2 ∈ rs, recordNoResultFor r2 tc.id := by
      intro r2 hr2 p2 hp2 tr htr hteq
      have htrue : streamHasResultFor rs tc.id = true := by
        unfold streamHasResultFor
        rw [List.any_eq_true]
        refine ⟨r2, hr2, ?_⟩
        rw [List.any_eq_true]
        refine ⟨p2, hp2, ?_⟩
        rw [htr]
        exact decide_eq_true hteq
      rw [htrue] at hnone
      exact Bool.noConfusion hnone
    have hno : noToolOutput (runClaudeAux initCState rs).1.arena tc.id :=
      runClaudeAux_noToolOutput rs initCState tc.id hall init_CWF
        (by intro e0 he0; simp [initCState] at he0)
    rw [runClaude_eq] at he
    obtain ⟨ev, hev, hres⟩ := List.mem_map.1 he
    cases ev with
    | buffered i =>
      cases hg : (runClaudeAux initCState rs).1.arena[i]? with
      | none =>
        exfalso
        simp only [resolveEmit] at hres
        rw [hg] at hres
        have hee : (⟨"", 0, "", [], none, ""⟩ : UnifiedEntry) = e := hres
        rw [← hee] at hq
        exact (List.not_mem_nil q) hq
      | some e0 =>
        simp only [resolveEmit] at hres
        rw [hg] at hres
        have hee : e0 = e := hres
        subst hee
        exact hno e0 (List.getElem?_mem hg) q hq tc2 hqc hid
    | direct e0 =>
      have hdm := runClaude_direct_mem rs e0 hev
      obtain ⟨r2, hr2, he0⟩ := runClaudeAux_direct rs initCState e0 hdm
      have hee : e0 = e := hres
      subst hee
      rw [he0] at hq
      exact recParts_toolOutput r2 q hq tc2 hqc

/-- The tool call of the C1 witness record. -/
def c1wTC : UnifiedToolCall := ⟨"z1", "Bash", [], "", "", "", ""⟩

/-- The part carrying the C1 witness tool call. -/
def c1wPart : UnifiedPart := ⟨"tool_call", UContent.toolCallC c1wTC⟩

/-- An assistant record with one tool call and no matching result. -/
def c1wRec : ClaudeRecord :=
  ⟨"assistant", 1, some ⟨"mZ", ClaudeContent.arrC [toolUseItem "z1"]⟩⟩

/-- Witness for the amended C1. -/
theorem claude_no_tool_call_lost_amended_witness :
    (∃ e ∈ runClaude [c1wRec], ∃ q ∈ e.parts, partIdOf q = some c1wTC.id) ∧
    (streamHasResultFor [c1wRec] c1wTC.id = false →
      ∀ e ∈ runClaude [c1wRec], ∀ q ∈ e.parts, ∀ tc2,
        q.content = UContent.toolCallC tc2 → tc2.id = c1wTC.id → tc2.output = "") :=
  claude_no_tool_call_lost_amended [c1wRec] c1wRec c1wPart c1wTC
    (by decide) rfl (by decide) rfl
